import Mathlib

/-!
Verification development for the Approval Distribution Core
(`node/network/approval-distribution/src/lib.rs`).

The Rust subsystem is shallowly embedded: hash maps become association
lists, the event loop becomes a step function over an explicit event type,
outbound subsystem messages become an explicit `Output` list, and the
random-number generator becomes an explicit stream of booleans.  External
collaborators that are not part of the source tree (the grid topology and
the random-routing sampler of `polkadot-node-network-protocol`) are
modelled from the specification, as marked on their doc comments.
-/

namespace ApprovalDist

abbrev Hash := Nat
abbrev CandidateIndex := Nat
abbrev ValidatorIndex := Nat
abbrev PeerId := Nat
abbrev BlockNumber := Nat
abbrev SessionIndex := Nat
abbrev Cert := Nat
abbrev Signature := Nat

/-- The random-number generator, embedded as an explicit stream of coin
flips consumed by the random-routing sampler. -/
abbrev Rng := List Bool

def rngNext (r : Rng) : Bool × Rng := (r.headD false, r.tail)

/-! ### Association-list maps (shallow embedding of `HashMap` / `BTreeMap`) -/

section MapOps

variable {α β : Type} [DecidableEq α]

/-- Lookup in an association list (embedding of `HashMap::get`). -/
def mfind : List (α × β) → α → Option β
  | [], _ => none
  | (k, v) :: rest, key => if k = key then some v else mfind rest key

/-- Insert-or-update in an association list (embedding of
`HashMap::insert` / occupied-entry mutation); updates in place, appends
fresh keys at the end. -/
def mput : List (α × β) → α → β → List (α × β)
  | [], key, val => [(key, val)]
  | (k, v) :: rest, key, val =>
    if k = key then (k, val) :: rest else (k, v) :: mput rest key val

/-- Key removal (embedding of `HashMap::remove`). -/
def mdrop (m : List (α × β)) (key : α) : List (α × β) :=
  m.filter (fun kv => decide (kv.1 ≠ key))

/-- The keys of an association list. -/
def mkeys (m : List (α × β)) : List α := m.map Prod.fst

@[simp] theorem mfind_nil (key : α) : mfind ([] : List (α × β)) key = none := rfl

theorem mfind_mput_self (m : List (α × β)) (key : α) (val : β) :
    mfind (mput m key val) key = some val := by
  induction m with
  | nil => simp [mput, mfind]
  | cons kv rest ih =>
    obtain ⟨k, v⟩ := kv
    by_cases h : k = key
    · simp [mput, h, mfind]
    · simp [mput, h, mfind, ih]

theorem mfind_mput_ne (m : List (α × β)) (key key' : α) (val : β) (h : key ≠ key') :
    mfind (mput m key val) key' = mfind m key' := by
  induction m with
  | nil => simp [mput, mfind, h]
  | cons kv rest ih =>
    obtain ⟨k, v⟩ := kv
    by_cases hk : k = key
    · subst hk
      simp [mput, mfind, h]
    · simp [mput, hk, mfind, ih]

theorem mkeys_mput (m : List (α × β)) (key : α) (val : β) :
    mkeys (mput m key val) = if key ∈ mkeys m then mkeys m else mkeys m ++ [key] := by
  induction m with
  | nil => simp [mput, mkeys]
  | cons kv rest ih =>
    obtain ⟨k, v⟩ := kv
    by_cases h : k = key
    · subst h
      simp [mput, mkeys]
    · have hne : ¬ key = k := fun hc => h hc.symm
      have step : mput ((k, v) :: rest) key val = (k, v) :: mput rest key val := by
        simp [mput, h]
      rw [step]
      have hcons : mkeys ((k, v) :: mput rest key val) = k :: mkeys (mput rest key val) := rfl
      rw [hcons, ih]
      by_cases hmem : key ∈ List.map Prod.fst rest
      · simp [mkeys, hmem, hne]
      · simp [mkeys, hmem, hne]

theorem mkeys_nodup_mput (m : List (α × β)) (key : α) (val : β)
    (h : (mkeys m).Nodup) : (mkeys (mput m key val)).Nodup := by
  rw [mkeys_mput]
  split
  · exact h
  · rename_i hnot
    simp [List.nodup_append, h, hnot]

theorem mfind_isSome_of_mem_keys (m : List (α × β)) (key : α)
    (h : key ∈ mkeys m) : (mfind m key).isSome := by
  induction m with
  | nil => simp [mkeys] at h
  | cons kv rest ih =>
    obtain ⟨k, v⟩ := kv
    by_cases hk : k = key
    · simp [mfind, hk]
    · simp [mkeys] at h
      rcases h with h | h
      · exact absurd h.symm hk
      · simpa [mfind, hk] using ih (by simpa [mkeys] using h)

theorem mem_keys_of_mfind_isSome (m : List (α × β)) (key : α)
    (h : (mfind m key).isSome) : key ∈ mkeys m := by
  induction m with
  | nil => simp [mfind] at h
  | cons kv rest ih =>
    obtain ⟨k, v⟩ := kv
    by_cases hk : k = key
    · simp [mkeys, hk]
    · simp [mfind, hk] at h
      have := ih h
      simp [mkeys] at this ⊢
      exact Or.inr this

theorem mfind_eq_some_of_mem (m : List (α × β)) (k : α) (v : β)
    (hnd : (mkeys m).Nodup) (hmem : (k, v) ∈ m) : mfind m k = some v := by
  induction m with
  | nil => simp at hmem
  | cons kv rest ih =>
    obtain ⟨k0, v0⟩ := kv
    rcases List.mem_cons.mp hmem with hmem | hmem
    · injection hmem with h1 h2
      simp [mfind, h1, h2]
    · have hnd0 : (k0 :: mkeys rest).Nodup := hnd
      by_cases hk : k0 = k
      · subst hk
        have hkey : k0 ∈ mkeys rest := by
          simpa [mkeys] using List.mem_map_of_mem Prod.fst hmem
        exact absurd hkey (List.nodup_cons.mp hnd0).1
      · have hnd' : (mkeys rest).Nodup := (List.nodup_cons.mp hnd0).2
        simpa [mfind, hk] using ih hnd' hmem

theorem mem_of_mfind_eq_some (m : List (α × β)) (k : α) (v : β)
    (h : mfind m k = some v) : (k, v) ∈ m := by
  induction m with
  | nil => simp [mfind] at h
  | cons kv rest ih =>
    obtain ⟨k0, v0⟩ := kv
    by_cases hk : k0 = k
    · subst hk
      simp [mfind] at h
      simp [h]
    · simp [mfind, hk] at h
      exact List.mem_cons_of_mem _ (ih h)

end MapOps

/-! ### Message subjects and the knowledge ledger -/

/-- `MessageKind` from the source: `Assignment | Approval`. -/
inductive MessageKind
  | Assignment
  | Approval
deriving DecidableEq, Repr

/-- `MessageSubject(Hash, CandidateIndex, ValidatorIndex)`: the
deduplication key of the subsystem. -/
structure MessageSubject where
  block_hash : Hash
  candidate_index : CandidateIndex
  validator : ValidatorIndex
deriving DecidableEq, Repr

/-- `Knowledge`: a map from subjects to the strongest kind known.  No
entry means the message is unknown; `Assignment` means the assignment is
known; `Approval` means both the assignment and the approval are known. -/
structure Knowledge where
  known_messages : List (MessageSubject × MessageKind)
deriving DecidableEq, Repr

def Knowledge.empty : Knowledge := ⟨[]⟩

/-- `Knowledge::contains` from the source, by exact case analysis. -/
def Knowledge.contains (k : Knowledge) (message : MessageSubject) (kind : MessageKind) : Bool :=
  match kind, mfind k.known_messages message with
  | _, none => false
  | .Assignment, some _ => true
  | .Approval, some .Assignment => false
  | .Approval, some .Approval => true

/-- `Knowledge::insert` from the source: inserts a vacant entry or
upgrades `Assignment` to `Approval`; returns the new ledger and the
novelty flag. -/
def Knowledge.insert (k : Knowledge) (message : MessageSubject) (kind : MessageKind) :
    Knowledge × Bool :=
  match mfind k.known_messages message with
  | none => (⟨mput k.known_messages message kind⟩, true)
  | some old =>
    match old, kind with
    | .Assignment, .Assignment => (k, false)
    | .Approval, .Approval => (k, false)
    | .Approval, .Assignment => (k, false)
    | .Assignment, .Approval => (⟨mput k.known_messages message .Approval⟩, true)

/-- `PeerKnowledge`: what we sent to and received from one peer for one
block. -/
structure PeerKnowledge where
  sent : Knowledge
  received : Knowledge
deriving DecidableEq, Repr

def PeerKnowledge.empty : PeerKnowledge := ⟨Knowledge.empty, Knowledge.empty⟩

/-- `PeerKnowledge::contains`: membership in the union of sent and
received knowledge. -/
def PeerKnowledge.contains (pk : PeerKnowledge) (message : MessageSubject)
    (kind : MessageKind) : Bool :=
  pk.sent.contains message kind || pk.received.contains message kind

/-! ### Routing (grid topology and random routing) -/

/-- `RequiredRouting` variants, as listed in the data model. -/
inductive RequiredRouting
  | None
  | PendingTopology
  | GridX
  | GridY
  | GridXY
  | All
deriving DecidableEq, Repr

/-- Modelled from the spec: `None` and `PendingTopology` route to nobody
(routing is re-computed when the topology arrives), so they count as
empty required-routing sets.  The `RequiredRouting` type lives in the
external `polkadot-node-network-protocol` crate, absent from src. -/
def RequiredRouting.is_empty : RequiredRouting → Bool
  | .None => true
  | .PendingTopology => true
  | _ => false

/-- Modelled from the spec: the per-session grid neighbours of the local
validator.  The spec describes a square-grid arrangement with row and
column neighbour sets and a required-routing resolution per validator
index; the concrete sets are kept abstract as boolean membership
functions, since `grid_topology.rs` is external to src. -/
structure GridNeighbors where
  route_x : PeerId → Bool
  route_y : PeerId → Bool
  required_routing_by_index : ValidatorIndex → Bool → RequiredRouting

/-- Modelled from the spec: grid routing sends along rows, columns or
both; `All` means every peer; `None` and `PendingTopology` route
nowhere. -/
def GridNeighbors.route_to_peer (t : GridNeighbors) (r : RequiredRouting) (p : PeerId) : Bool :=
  match r with
  | .All => true
  | .GridXY => t.route_x p || t.route_y p
  | .GridX => t.route_x p
  | .GridY => t.route_y p
  | .None => false
  | .PendingTopology => false

/-- Modelled from the spec: the random-routing sample budget (design
note: expected random sends per message bounded, target at most 4). -/
def RANDOM_ROUTING_TARGET : Nat := 4

/-- Modelled from the spec: `RandomRouting` tracks how many random
(non-grid) sends have occurred and refuses further random routing once
the budget is spent.  Lives in the external protocol crate. -/
structure RandomRouting where
  sent : Nat
deriving DecidableEq, Repr

def RandomRouting.empty : RandomRouting := ⟨0⟩

/-- Modelled from the spec: sample a coin from the generator while the
budget is not yet spent; once spent, refuse without consuming. -/
def RandomRouting.sample (rr : RandomRouting) (_total_peers : Nat) (rng : Rng) : Bool × Rng :=
  if rr.sent < RANDOM_ROUTING_TARGET then rngNext rng else (false, rng)

def RandomRouting.inc_sent (rr : RandomRouting) : RandomRouting := ⟨rr.sent + 1⟩

/-- Refcounted per-session topologies (`SessionGridTopologies`), modelled
from the spec resource policy: topologies are refcounted by
`BlockEntry.session`. -/
structure TopologyEntry where
  refs : Nat
  topology : Option GridNeighbors

structure SessionGridTopologies where
  inner : List (SessionIndex × TopologyEntry)

def SessionGridTopologies.empty : SessionGridTopologies := ⟨[]⟩

def SessionGridTopologies.get_topology (t : SessionGridTopologies) (s : SessionIndex) :
    Option GridNeighbors :=
  match mfind t.inner s with
  | some e => e.topology
  | none => none

def SessionGridTopologies.inc_session_refs (t : SessionGridTopologies) (s : SessionIndex) :
    SessionGridTopologies :=
  match mfind t.inner s with
  | some e => ⟨mput t.inner s ⟨e.refs + 1, e.topology⟩⟩
  | none => ⟨mput t.inner s ⟨1, none⟩⟩

def SessionGridTopologies.dec_session_refs (t : SessionGridTopologies) (s : SessionIndex) :
    SessionGridTopologies :=
  match mfind t.inner s with
  | some e => if e.refs ≤ 1 then ⟨mdrop t.inner s⟩ else ⟨mput t.inner s ⟨e.refs - 1, e.topology⟩⟩
  | none => t

def SessionGridTopologies.insert_topology (t : SessionGridTopologies) (s : SessionIndex)
    (g : GridNeighbors) : SessionGridTopologies :=
  match mfind t.inner s with
  | some e => ⟨mput t.inner s ⟨e.refs, some g⟩⟩
  | none => ⟨mput t.inner s ⟨0, some g⟩⟩

/-! ### Message payloads, states, and block entries -/

/-- `IndirectAssignmentCert { block_hash, validator, cert }`. -/
structure IndirectAssignmentCert where
  block_hash : Hash
  validator : ValidatorIndex
  cert : Cert
deriving DecidableEq, Repr

/-- `IndirectSignedApprovalVote { block_hash, candidate_index, validator,
signature }`. -/
structure IndirectSignedApprovalVote where
  block_hash : Hash
  candidate_index : CandidateIndex
  validator : ValidatorIndex
  signature : Signature
deriving DecidableEq, Repr

/-- `ApprovalState`: `Assigned(cert)` or `Approved(cert, signature)`. -/
inductive ApprovalState
  | Assigned (cert : Cert)
  | Approved (cert : Cert) (signature : Signature)
deriving DecidableEq, Repr

def ApprovalState.assignment_cert : ApprovalState → Cert
  | .Assigned cert => cert
  | .Approved cert _ => cert

def ApprovalState.approval_signature : ApprovalState → Option Signature
  | .Assigned _ => none
  | .Approved _ sig => some sig

/-- `MessageState`: routing state bundled with the messages for one
candidate and validator. -/
structure MessageState where
  required_routing : RequiredRouting
  local_msg : Bool
  random_routing : RandomRouting
  approval_state : ApprovalState
deriving DecidableEq, Repr

/-- `CandidateEntry`: per-validator message states of one candidate. -/
structure CandidateEntry where
  messages : List (ValidatorIndex × MessageState)
deriving DecidableEq, Repr

def CandidateEntry.empty : CandidateEntry := ⟨[]⟩

/-- `BlockEntry`: per-block view of peers, knowledge and candidates. -/
structure BlockEntry where
  known_by : List (PeerId × PeerKnowledge)
  number : BlockNumber
  parent_hash : Hash
  knowledge : Knowledge
  candidates : List CandidateEntry
  session : SessionIndex
deriving DecidableEq, Repr

/-- `View { heads, finalized_number }` of the network protocol. -/
structure View where
  heads : List Hash
  finalized_number : BlockNumber
deriving DecidableEq, Repr

def View.empty : View := ⟨[], 0⟩

def View.viewContains (v : View) (h : Hash) : Bool := v.heads.contains h

/-- `BlockApprovalMeta`; `candidates_count` stands for
`meta.candidates.len()` of the source. -/
structure BlockApprovalMeta where
  hash : Hash
  number : BlockNumber
  parent_hash : Hash
  candidates_count : Nat
  session : SessionIndex
deriving DecidableEq, Repr

/-- `MessageSource`: a peer or our own subsystems. -/
inductive MessageSource
  | Peer (id : PeerId)
  | Local
deriving DecidableEq, Repr

def MessageSource.peer_id : MessageSource → Option PeerId
  | .Peer id => some id
  | .Local => none

/-- `PendingMessage`: a queued inbound message awaiting its turn. -/
inductive PendingMessage
  | Assignment (cert : IndirectAssignmentCert) (candidate_index : CandidateIndex)
  | Approval (vote : IndirectSignedApprovalVote)
deriving DecidableEq, Repr

/-- The subject computed for a pending message, exactly as in
`ImportPipeline::queue_message`. -/
def PendingMessage.subject : PendingMessage → MessageSubject
  | .Approval vote => ⟨vote.block_hash, vote.candidate_index, vote.validator⟩
  | .Assignment a ci => ⟨a.block_hash, ci, a.validator⟩

/-- `AssignmentCheckResult` of the verifier interface. -/
inductive AssignmentCheckResult
  | Accepted
  | AcceptedDuplicate
  | TooFarInFuture
  | Bad
deriving DecidableEq, Repr

/-- `ApprovalCheckResult` of the verifier interface. -/
inductive ApprovalCheckResult
  | Accepted
  | Bad
deriving DecidableEq, Repr

/-- A `PendingAssignmentCheck` minus its oneshot receiver and metrics
timer (the reply is delivered by an explicit completion event). -/
structure PendingAssignmentCheck where
  message_subject : MessageSubject
  peer_id : Option PeerId
  assignment : IndirectAssignmentCert
  claimed_candidate_index : CandidateIndex
deriving DecidableEq, Repr

structure PendingAssignmentCheckResult where
  message_subject : MessageSubject
  peer_id : Option PeerId
  assignment : IndirectAssignmentCert
  claimed_candidate_index : CandidateIndex
  result : Option AssignmentCheckResult
deriving DecidableEq, Repr

/-- A `PendingApprovalCheck` minus its oneshot receiver and timer. -/
structure PendingApprovalCheck where
  message_subject : MessageSubject
  peer_id : Option PeerId
  vote : IndirectSignedApprovalVote
deriving DecidableEq, Repr

structure PendingApprovalCheckResult where
  message_subject : MessageSubject
  peer_id : Option PeerId
  vote : IndirectSignedApprovalVote
  result : Option ApprovalCheckResult
deriving DecidableEq, Repr

inductive PendingWork
  | Assignment (pending : PendingAssignmentCheck)
  | Approval (pending : PendingApprovalCheck)
deriving DecidableEq, Repr

/-! ### Import pipeline -/

/-- `ImportPipeline`: per-subject serialisation of verification. -/
structure ImportPipeline where
  pending_assignment_checks : List PendingAssignmentCheck
  pending_vote_checks : List PendingApprovalCheck
  pending_messages : List (MessageSubject × List (PeerId × PendingMessage))
  pending_work : List (MessageSubject × Bool)
deriving DecidableEq, Repr

def ImportPipeline.empty : ImportPipeline := ⟨[], [], [], []⟩

/-- `ImportPipeline::pop_next_message`: pop the head of the per-subject
backlog; remove the key entirely when nothing was popped. -/
def ImportPipeline.pop_next_message (p : ImportPipeline) (message_subject : MessageSubject) :
    ImportPipeline × Option (PeerId × PendingMessage) :=
  let popped :=
    match mfind p.pending_messages message_subject with
    | some queue => queue.head?
    | none => none
  match popped with
  | none => ({ p with pending_messages := mdrop p.pending_messages message_subject }, none)
  | some pm =>
    let queue := (mfind p.pending_messages message_subject).getD []
    ({ p with pending_messages := mput p.pending_messages message_subject queue.tail }, some pm)

/-- `ImportPipeline::queue_message`: append to the per-subject FIFO. -/
def ImportPipeline.queue_message (p : ImportPipeline) (peer_id : PeerId)
    (message : PendingMessage) : ImportPipeline :=
  let message_subject := message.subject
  let queue := (mfind p.pending_messages message_subject).getD []
  { p with pending_messages := mput p.pending_messages message_subject (queue ++ [(peer_id, message)]) }

/-- `ImportPipeline::set_queue_idle` (the flag holds `running`; the
accessor below inverts it, exactly as in the source). -/
def ImportPipeline.set_queue_idle (p : ImportPipeline) (message_subject : MessageSubject)
    (idle : Bool) : ImportPipeline :=
  { p with pending_work := mput p.pending_work message_subject idle }

/-- `ImportPipeline::is_queue_idle`. -/
def ImportPipeline.is_queue_idle (p : ImportPipeline) (message_subject : MessageSubject) : Bool :=
  match mfind p.pending_work message_subject with
  | some running => !running
  | none => true

/-- `ImportPipeline::is_queue_empty`. -/
def ImportPipeline.is_queue_empty (p : ImportPipeline) (message_subject : MessageSubject) : Bool :=
  match mfind p.pending_messages message_subject with
  | some queue => queue.isEmpty
  | none => true

/-- `ImportPipeline::start_check_work`: mark the subject busy and push
the in-flight check into the respective ordered queue. -/
def ImportPipeline.start_check_work (p : ImportPipeline) (message_subject : MessageSubject)
    (pending_work : PendingWork) : ImportPipeline :=
  match pending_work with
  | .Approval pending =>
    let p := p.set_queue_idle message_subject true
    { p with pending_vote_checks := p.pending_vote_checks ++ [pending] }
  | .Assignment pending =>
    let p := p.set_queue_idle message_subject true
    { p with pending_assignment_checks := p.pending_assignment_checks ++ [pending] }

/-! ### Reputation, outputs and configuration -/

/-- The reputation constants of the source, as a closed enumeration. -/
inductive Rep
  | CostUnexpectedMessage
  | CostDuplicateMessage
  | CostAssignmentTooFarInTheFuture
  | CostInvalidMessage
  | BenefitValidMessage
  | BenefitValidMessageFirst
deriving DecidableEq, Repr

def COST_UNEXPECTED_MESSAGE : Rep := .CostUnexpectedMessage
def COST_DUPLICATE_MESSAGE : Rep := .CostDuplicateMessage
def COST_ASSIGNMENT_TOO_FAR_IN_THE_FUTURE : Rep := .CostAssignmentTooFarInTheFuture
def COST_INVALID_MESSAGE : Rep := .CostInvalidMessage
def BENEFIT_VALID_MESSAGE : Rep := .BenefitValidMessage
def BENEFIT_VALID_MESSAGE_FIRST : Rep := .BenefitValidMessageFirst

/-- Observable effects emitted towards the network bridge and the
verifier. -/
inductive Output
  | SendAssignments (peers : List PeerId)
      (assignments : List (IndirectAssignmentCert × CandidateIndex))
  | SendApprovals (peers : List PeerId) (approvals : List IndirectSignedApprovalVote)
  | ReportPeer (peer : PeerId) (rep : Rep)
  | CheckAndImportAssignment (assignment : IndirectAssignmentCert)
      (claimed_candidate_index : CandidateIndex)
  | CheckAndImportApproval (vote : IndirectSignedApprovalVote)
  | ApprovalSignaturesReply (sigs : List (ValidatorIndex × Signature))
deriving DecidableEq, Repr

/-- `modify_reputation`: the source currently disables the two minor
costs as a workaround for parallel-import races, so those calls emit no
`ReportPeer` at all. -/
def modify_reputation (peer_id : PeerId) (rep : Rep) : List Output :=
  match rep with
  | .CostUnexpectedMessage => []
  | .CostDuplicateMessage => []
  | _ => [.ReportPeer peer_id rep]

/-- `AggressionConfig`. -/
structure AggressionConfig where
  l1_threshold : Option BlockNumber
  l2_threshold : Option BlockNumber
  resend_unfinalized_period : Option BlockNumber
deriving DecidableEq, Repr

/-- `AggressionConfig::is_age_relevant`. -/
def AggressionConfig.is_age_relevant (c : AggressionConfig) (block_age : BlockNumber) : Bool :=
  match c.l1_threshold with
  | some t => decide (block_age ≥ t)
  | none =>
    match c.resend_unfinalized_period with
    | some t => decide (block_age > 0) && decide (block_age % t = 0)
    | none => false

/-- The `Default` instance of `AggressionConfig`. -/
def AggressionConfig.defaultConfig : AggressionConfig :=
  ⟨some 1000, some 10000, none⟩

inductive Resend
  | Yes
  | No
deriving DecidableEq, Repr

/-! ### Subsystem state -/

/-- The `State` struct: overall state of the subsystem.  `blocks_by_number`
is kept sorted by key, mirroring the `BTreeMap`. -/
structure State where
  blocks_by_number : List (BlockNumber × List Hash)
  blocks : List (Hash × BlockEntry)
  pending_known : List (Hash × List (PeerId × PendingMessage))
  peer_views : List (PeerId × View)
  topologies : SessionGridTopologies
  recent_outdated_blocks : List Hash
  aggression_config : AggressionConfig
  import_pipeline : ImportPipeline

/-- `State::default()`: the state the event loop starts from. -/
def State.initial : State :=
  ⟨[], [], [], [], SessionGridTopologies.empty, [], AggressionConfig.defaultConfig,
    ImportPipeline.empty⟩

/-- `RecentlyOutdated::note_outdated` with `MAX_BUF_LEN = 20`. -/
def note_outdated (buf : List Hash) (h : Hash) : List Hash :=
  let buf := buf ++ [h]
  buf.drop (buf.length - 20)

/-- `RecentlyOutdated::is_recent_outdated`. -/
def is_recent_outdated (buf : List Hash) (h : Hash) : Bool := buf.contains h

/-- Push a hash onto the sorted `blocks_by_number` structure
(`BTreeMap::entry(number).or_default().push(hash)`). -/
def bbnPush : List (BlockNumber × List Hash) → BlockNumber → Hash → List (BlockNumber × List Hash)
  | [], n, h => [(n, [h])]
  | (k, hs) :: rest, n, h =>
    if n < k then (n, [h]) :: (k, hs) :: rest
    else if n = k then (k, hs ++ [h]) :: rest
    else (k, hs) :: bbnPush rest n h

/-! ### Circulation helpers -/

/-- The occupied/vacant `known_by` bookkeeping shared by
`start_assignment_import` and `start_approval_import`: an occupied entry
already containing the subject records the re-receipt and returns early
(with a duplicate cost when it was already received); a vacant entry
earns the out-of-view cost but falls through. -/
def peer_known_bookkeeping (s : State) (entry : BlockEntry) (block_hash : Hash)
    (message_subject : MessageSubject) (message_kind : MessageKind) (peer_id : PeerId) :
    Except (State × List Output) (List Output) :=
  match mfind entry.known_by peer_id with
  | some pk =>
    if pk.contains message_subject message_kind then
      let ins := pk.received.insert message_subject message_kind
      let pk' := { pk with received := ins.1 }
      let entry' := { entry with known_by := mput entry.known_by peer_id pk' }
      let s' := { s with blocks := mput s.blocks block_hash entry' }
      if !ins.2 then .error (s', modify_reputation peer_id COST_DUPLICATE_MESSAGE)
      else .error (s', [])
    else .ok []
  | none => .ok (modify_reputation peer_id COST_UNEXPECTED_MESSAGE)

/-- The reputation and knowledge bookkeeping stage of
`finish_assignment_import_and_circulate` for verified results; an
`Except.error` is an early return before circulation. -/
def assignment_result_bookkeeping (s : State) (entry : BlockEntry)
    (result : PendingAssignmentCheckResult) (block_hash : Hash)
    (message_subject : MessageSubject) :
    Except (State × List Output) (State × BlockEntry × List Output) :=
  let message_kind := MessageKind.Assignment
  match result.peer_id with
  | some pid =>
    match result.result with
    | some .Accepted =>
      let outs1 := modify_reputation pid BENEFIT_VALID_MESSAGE_FIRST
      let entry :=
        match mfind entry.known_by pid with
        | some pk =>
          let pk' := { pk with received := (pk.received.insert message_subject message_kind).1 }
          { entry with known_by := mput entry.known_by pid pk' }
        | none => entry
      let ins := entry.knowledge.insert message_subject message_kind
      let entry := { entry with knowledge := ins.1 }
      let s := { s with blocks := mput s.blocks block_hash entry }
      if !ins.2 then .error (s, outs1) else .ok (s, entry, outs1)
    | some .AcceptedDuplicate =>
      let entry :=
        match mfind entry.known_by pid with
        | some pk =>
          let pk' := { pk with received := (pk.received.insert message_subject message_kind).1 }
          { entry with known_by := mput entry.known_by pid pk' }
        | none => entry
      .error ({ s with blocks := mput s.blocks block_hash entry }, [])
    | some .TooFarInFuture =>
      .error (s, modify_reputation pid COST_ASSIGNMENT_TOO_FAR_IN_THE_FUTURE)
    | some .Bad => .error (s, modify_reputation pid COST_INVALID_MESSAGE)
    | none => .ok (s, entry, [])
  | none => .ok (s, entry, [])

/-- The analogous bookkeeping stage of
`finish_approval_import_and_circulate`. -/
def approval_result_bookkeeping (s : State) (entry : BlockEntry)
    (result : PendingApprovalCheckResult) (block_hash : Hash)
    (message_subject : MessageSubject) :
    Except (State × List Output) (State × BlockEntry × List Output) :=
  let message_kind := MessageKind.Approval
  match result.peer_id with
  | some pid =>
    match result.result with
    | some .Accepted =>
      let outs1 := modify_reputation pid BENEFIT_VALID_MESSAGE_FIRST
      let entry :=
        match mfind entry.known_by pid with
        | some pk =>
          let pk' := { pk with received := (pk.received.insert message_subject message_kind).1 }
          { entry with known_by := mput entry.known_by pid pk' }
        | none => entry
      let ins := entry.knowledge.insert message_subject message_kind
      let entry := { entry with knowledge := ins.1 }
      let s := { s with blocks := mput s.blocks block_hash entry }
      if !ins.2 then .error (s, outs1) else .ok (s, entry, outs1)
    | some .Bad => .error (s, modify_reputation pid COST_INVALID_MESSAGE)
    | none => .ok (s, entry, [])
  | none => .ok (s, entry, [])

/-- The second pass over the selected peers in both circulate functions
(`finish_assignment_import_and_circulate` lines marking `sent` and
collecting `filtered_peers`, repeated verbatim for approvals): re-check
the peer knowledge, record the subject as sent and keep the peer. -/
def mark_sent_fold (message_subject : MessageSubject) (message_kind : MessageKind) :
    List PeerId → List (PeerId × PeerKnowledge) →
    List (PeerId × PeerKnowledge) × List PeerId
  | [], kb => (kb, [])
  | peer :: rest, kb =>
    match mfind kb peer with
    | some pk =>
      if !(pk.contains message_subject message_kind) then
        let kb' := mput kb peer
          { pk with sent := (pk.sent.insert message_subject message_kind).1 }
        let (kb2, sel) := mark_sent_fold message_subject message_kind rest kb'
        (kb2, peer :: sel)
      else mark_sent_fold message_subject message_kind rest kb
    | none => mark_sent_fold message_subject message_kind rest kb

/-- The `peer_filter` loop of `finish_assignment_import_and_circulate`:
iterate the `known_by` keys, exclude the source peer, accept peers in
the required-routing set, otherwise sample the random router (updating
the counter on success) while consuming the generator. -/
def assignment_peer_fold (topology : Option GridNeighbors) (required_routing : RequiredRouting)
    (source_peer : Option PeerId) (n_peers_total : Nat) :
    List (PeerId × PeerKnowledge) → RandomRouting → Rng →
    List PeerId × RandomRouting × Rng
  | [], rr, rng => ([], rr, rng)
  | (peer, _) :: rest, rr, rng =>
    if source_peer = some peer then
      assignment_peer_fold topology required_routing source_peer n_peers_total rest rr rng
    else if (topology.map (fun t => t.route_to_peer required_routing peer)).getD false then
      let (sel, rr', rng') :=
        assignment_peer_fold topology required_routing source_peer n_peers_total rest rr rng
      (peer :: sel, rr', rng')
    else
      let (route_random, rng') := rr.sample n_peers_total rng
      if route_random then
        let (sel, rr', rng'') :=
          assignment_peer_fold topology required_routing source_peer n_peers_total rest
            rr.inc_sent rng'
        (peer :: sel, rr', rng'')
      else
        assignment_peer_fold topology required_routing source_peer n_peers_total rest rr rng'

/-- `finish_assignment_import_and_circulate`: reputation bookkeeping for
verified peer results, then routing-state initialisation and
distribution to peers aware of the block. -/
def State.finish_assignment_import_and_circulate (s : State)
    (result : PendingAssignmentCheckResult) (rng : Rng) : State × List Output × Rng :=
  let block_hash := result.assignment.block_hash
  let validator_index := result.assignment.validator
  let claimed_candidate_index := result.claimed_candidate_index
  let assignment := result.assignment
  let message_subject : MessageSubject := ⟨block_hash, claimed_candidate_index, validator_index⟩
  let message_kind := MessageKind.Assignment
  match mfind s.blocks block_hash with
  | none => (s, [], rng)
  | some entry =>
    match assignment_result_bookkeeping s entry result block_hash message_subject with
    | .error r => (r.1, r.2, rng)
    | .ok (s, entry, outs1) =>
      let topology := s.topologies.get_topology entry.session
      let local_msg := result.peer_id.isNone
      let required_routing :=
        match topology with
        | some t => t.required_routing_by_index validator_index local_msg
        | none => RequiredRouting.PendingTopology
      match entry.candidates.get? claimed_candidate_index with
      | none => (s, outs1, rng)
      | some candidate_entry =>
        let message_state :=
          match mfind candidate_entry.messages validator_index with
          | some ms => ms
          | none =>
            ⟨required_routing, local_msg, RandomRouting.empty, .Assigned assignment.cert⟩
        let n_peers_total := s.peer_views.length
        let source_peer := result.peer_id
        let (peers, random_routing', rng) :=
          assignment_peer_fold topology required_routing source_peer n_peers_total
            entry.known_by message_state.random_routing rng
        let message_state := { message_state with random_routing := random_routing' }
        let (known_by', filtered_peers) :=
          mark_sent_fold message_subject message_kind peers entry.known_by
        let candidate_entry :=
          { candidate_entry with
            messages := mput candidate_entry.messages validator_index message_state }
        let entry :=
          { entry with
            candidates := entry.candidates.set claimed_candidate_index candidate_entry,
            known_by := known_by' }
        let s := { s with blocks := mput s.blocks block_hash entry }
        let outs2 :=
          if filtered_peers.isEmpty then []
          else [Output.SendAssignments filtered_peers [(assignment, claimed_candidate_index)]]
        (s, outs1 ++ outs2, rng)

/-- `start_assignment_import`: queue behind an in-flight check, penalise
out-of-view or duplicate peers, reward known-valid re-sends, start a
verifier check for fresh peer messages, or import local messages
directly. -/
def State.start_assignment_import (s : State) (source : MessageSource)
    (assignment : IndirectAssignmentCert) (claimed_candidate_index : CandidateIndex)
    (rng : Rng) (force_start : Bool) : State × List Output × Rng :=
  let block_hash := assignment.block_hash
  let validator_index := assignment.validator
  let message_subject : MessageSubject := ⟨block_hash, claimed_candidate_index, validator_index⟩
  let message_kind := MessageKind.Assignment
  if !force_start &&
      (!(s.import_pipeline.is_queue_idle message_subject) ||
        !(s.import_pipeline.is_queue_empty message_subject)) &&
      (source.peer_id).isSome then
    match source.peer_id with
    | some peer =>
      let pipe' := s.import_pipeline.queue_message peer
        (.Assignment assignment claimed_candidate_index)
      ({ s with import_pipeline := pipe' }, [], rng)
    | none => (s, [], rng)
  else
    match mfind s.blocks block_hash with
    | none =>
      match source.peer_id with
      | some peer_id =>
        if !(is_recent_outdated s.recent_outdated_blocks block_hash) then
          (s, modify_reputation peer_id COST_UNEXPECTED_MESSAGE, rng)
        else (s, [], rng)
      | none => (s, [], rng)
    | some entry =>
      match source.peer_id with
      | some peer_id =>
        match peer_known_bookkeeping s entry block_hash message_subject message_kind peer_id with
        | .error r => (r.1, r.2, rng)
        | .ok outs0 =>
          if entry.knowledge.contains message_subject message_kind then
            let outs := outs0 ++ modify_reputation peer_id BENEFIT_VALID_MESSAGE
            let entry' :=
              match mfind entry.known_by peer_id with
              | some pk =>
                let pk' := { pk with received := (pk.received.insert message_subject message_kind).1 }
                { entry with known_by := mput entry.known_by peer_id pk' }
              | none => entry
            ({ s with blocks := mput s.blocks block_hash entry' }, outs, rng)
          else
            let pending : PendingAssignmentCheck :=
              ⟨message_subject, some peer_id, assignment, claimed_candidate_index⟩
            let outs := outs0 ++ [Output.CheckAndImportAssignment assignment claimed_candidate_index]
            let pipe' := s.import_pipeline.start_check_work message_subject
              (.Assignment pending)
            ({ s with import_pipeline := pipe' }, outs, rng)
      | none =>
        let ins := entry.knowledge.insert message_subject message_kind
        if !ins.2 then (s, [], rng)
        else
          let entry' := { entry with knowledge := ins.1 }
          let s := { s with blocks := mput s.blocks block_hash entry' }
          s.finish_assignment_import_and_circulate
            ⟨message_subject, none, assignment, claimed_candidate_index, none⟩ rng

/-- `finish_approval_import_and_circulate`: reputation bookkeeping, the
`Assigned` to `Approved` upgrade preserving routing metadata, and
distribution to the required-routing set plus peers we sent the
assignment to. -/
def State.finish_approval_import_and_circulate (s : State)
    (result : PendingApprovalCheckResult) : State × List Output :=
  let peer_id := result.peer_id
  let block_hash := result.vote.block_hash
  let validator_index := result.vote.validator
  let candidate_index := result.vote.candidate_index
  let message_subject := result.message_subject
  let message_kind := MessageKind.Approval
  match mfind s.blocks block_hash with
  | none => (s, [])
  | some entry =>
    match approval_result_bookkeeping s entry result block_hash message_subject with
    | .error r => r
    | .ok (s, entry, outs1) =>
      match entry.candidates.get? candidate_index with
      | none => (s, outs1)
      | some candidate_entry =>
        match mfind candidate_entry.messages validator_index with
        | none => (s, outs1)
        | some ms =>
          let upgraded : List (ValidatorIndex × MessageState) × RequiredRouting :=
            match ms.approval_state with
            | .Assigned cert =>
              (mput candidate_entry.messages validator_index
                  ⟨ms.required_routing, ms.local_msg, ms.random_routing,
                    .Approved cert result.vote.signature⟩,
                ms.required_routing)
            | .Approved c sg =>
              (mput candidate_entry.messages validator_index
                  ⟨ms.required_routing, ms.local_msg, ms.random_routing, .Approved c sg⟩,
                RequiredRouting.None)
          let messages' := upgraded.1
          let required_routing := upgraded.2
          let topology := s.topologies.get_topology entry.session
          let source_peer := peer_id
          let peers := (entry.known_by.filter (fun pk =>
              !(decide (source_peer = some pk.1)) &&
              (((topology.map (fun t => t.route_to_peer required_routing pk.1)).getD false) ||
                pk.2.sent.contains message_subject MessageKind.Assignment))).map Prod.fst
          let (known_by', filtered_peers) :=
            mark_sent_fold message_subject message_kind peers entry.known_by
          let candidate_entry := { candidate_entry with messages := messages' }
          let entry :=
            { entry with
              candidates := entry.candidates.set candidate_index candidate_entry,
              known_by := known_by' }
          let s := { s with blocks := mput s.blocks block_hash entry }
          let outs2 :=
            if filtered_peers.isEmpty then []
            else [Output.SendApprovals filtered_peers [result.vote]]
          (s, outs1 ++ outs2)

/-- `start_approval_import`: candidate-existence checked entry lookup,
the unknown-assignment gate, peer bookkeeping, the verifier request, or
a direct local import. -/
def State.start_approval_import (s : State) (source : MessageSource)
    (vote : IndirectSignedApprovalVote) (force_start : Bool) : State × List Output :=
  let block_hash := vote.block_hash
  let validator_index := vote.validator
  let candidate_index := vote.candidate_index
  let message_subject : MessageSubject := ⟨block_hash, candidate_index, validator_index⟩
  let message_kind := MessageKind.Approval
  if !force_start &&
      (!(s.import_pipeline.is_queue_idle message_subject) ||
        !(s.import_pipeline.is_queue_empty message_subject)) &&
      (source.peer_id).isSome then
    match source.peer_id with
    | some peer =>
      ({ s with import_pipeline := s.import_pipeline.queue_message peer (.Approval vote) }, [])
    | none => (s, [])
  else
    let entryOk :=
      match mfind s.blocks block_hash with
      | some entry =>
        if (entry.candidates.get? candidate_index).isSome then some entry else none
      | none => none
    match entryOk with
    | none =>
      match source.peer_id with
      | some peer_id =>
        if !(is_recent_outdated s.recent_outdated_blocks block_hash) then
          (s, modify_reputation peer_id COST_UNEXPECTED_MESSAGE)
        else (s, [])
      | none => (s, [])
    | some entry =>
      match source.peer_id with
      | some peer_id =>
        if !(entry.knowledge.contains message_subject MessageKind.Assignment) then
          (s, modify_reputation peer_id COST_UNEXPECTED_MESSAGE)
        else
          match peer_known_bookkeeping s entry block_hash message_subject message_kind peer_id with
          | .error r => r
          | .ok outs0 =>
            if entry.knowledge.contains message_subject message_kind then
              let outs := outs0 ++ modify_reputation peer_id BENEFIT_VALID_MESSAGE
              let entry' :=
                match mfind entry.known_by peer_id with
                | some pk =>
                  let pk' := { pk with received := (pk.received.insert message_subject message_kind).1 }
                  { entry with known_by := mput entry.known_by peer_id pk' }
                | none => entry
              ({ s with blocks := mput s.blocks block_hash entry' }, outs)
            else
              let pending : PendingApprovalCheck := ⟨message_subject, some peer_id, vote⟩
              let outs := outs0 ++ [Output.CheckAndImportApproval vote]
              let pipe' := s.import_pipeline.start_check_work message_subject
                (.Approval pending)
              ({ s with import_pipeline := pipe' }, outs)
      | none =>
        let ins := entry.knowledge.insert message_subject message_kind
        if !ins.2 then (s, [])
        else
          let entry' := { entry with knowledge := ins.1 }
          let s := { s with blocks := mput s.blocks block_hash entry' }
          s.finish_approval_import_and_circulate ⟨message_subject, none, vote, none⟩

/-! ### Peer view unification -/

/-- Accumulator of `unify_with_peer`: the unified peer's fresh knowledge
for the block being walked, the two global batches, and the generator. -/
structure UnifyAcc where
  pk : PeerKnowledge
  asg : List (IndirectAssignmentCert × CandidateIndex)
  app : List IndirectSignedApprovalVote
  rng : Rng

/-- The `peer_filter` closure of `unify_with_peer` applied to the
unified peer: grid routing or a random-routing sample (incrementing the
counter on success). -/
def unify_peer_filter (topology : Option GridNeighbors) (required_routing : RequiredRouting)
    (peer_id : PeerId) (random_routing : RandomRouting) (total_peers : Nat) (rng : Rng) :
    Bool × RandomRouting × Rng :=
  let in_topology := (topology.map (fun t => t.route_to_peer required_routing peer_id)).getD false
  if in_topology then (true, random_routing, rng)
  else
    let res := random_routing.sample total_peers rng
    if res.1 then (true, random_routing.inc_sent, res.2)
    else (false, random_routing, res.2)

/-- Process one message of one candidate for the unified peer: filter,
then batch the assignment and (when present) the approval that the peer
does not know yet, recording them as sent. -/
def unify_process_message (topology : Option GridNeighbors) (total_peers : Nat)
    (block : Hash) (candidate_index : Nat) (validator : ValidatorIndex)
    (peer_id : PeerId) (ms : MessageState) (acc : UnifyAcc) : MessageState × UnifyAcc :=
  let filt := unify_peer_filter topology ms.required_routing peer_id ms.random_routing
    total_peers acc.rng
  let pass := filt.1
  let ms := { ms with random_routing := filt.2.1 }
  let rng := filt.2.2
  if !pass then (ms, { acc with rng := rng })
  else
    let message_subject : MessageSubject := ⟨block, candidate_index, validator⟩
    let assignment_message :=
      ((⟨block, validator, ms.approval_state.assignment_cert⟩ : IndirectAssignmentCert),
        candidate_index)
    let approval_message := ms.approval_state.approval_signature.map
      (fun signature =>
        (⟨block, candidate_index, validator, signature⟩ : IndirectSignedApprovalVote))
    let stage1 : PeerKnowledge × List (IndirectAssignmentCert × CandidateIndex) :=
      if !(acc.pk.contains message_subject MessageKind.Assignment) then
        ({ acc.pk with sent := (acc.pk.sent.insert message_subject MessageKind.Assignment).1 },
          acc.asg ++ [assignment_message])
      else (acc.pk, acc.asg)
    let pk := stage1.1
    let asg := stage1.2
    let stage2 : PeerKnowledge × List IndirectSignedApprovalVote :=
      match approval_message with
      | some am =>
        if !(pk.contains message_subject MessageKind.Approval) then
          ({ pk with sent := (pk.sent.insert message_subject MessageKind.Approval).1 },
            acc.app ++ [am])
        else (pk, acc.app)
      | none => (pk, acc.app)
    (ms, ⟨stage2.1, asg, stage2.2, rng⟩)

/-- Walk the messages of one candidate. -/
def unify_process_candidate (topology : Option GridNeighbors) (total_peers : Nat)
    (block : Hash) (candidate_index : Nat) (peer_id : PeerId) :
    List (ValidatorIndex × MessageState) → UnifyAcc →
    List (ValidatorIndex × MessageState) × UnifyAcc
  | [], acc => ([], acc)
  | (v, ms) :: rest, acc =>
    let one := unify_process_message topology total_peers block candidate_index v peer_id ms acc
    let more := unify_process_candidate topology total_peers block candidate_index peer_id rest one.2
    ((v, one.1) :: more.1, more.2)

/-- Walk all candidates of one block, tracking the candidate index. -/
def unify_process_candidates (topology : Option GridNeighbors) (total_peers : Nat)
    (block : Hash) (peer_id : PeerId) :
    List CandidateEntry → Nat → UnifyAcc → List CandidateEntry × UnifyAcc
  | [], _, acc => ([], acc)
  | ce :: rest, idx, acc =>
    let one := unify_process_candidate topology total_peers block idx peer_id ce.messages acc
    let more := unify_process_candidates topology total_peers block peer_id rest (idx + 1) one.2
    (⟨one.1⟩ :: more.1, more.2)

/-- State threaded through the ancestor walk of `unify_with_peer`. -/
structure UnifyState where
  entries : List (Hash × BlockEntry)
  asg : List (IndirectAssignmentCert × CandidateIndex)
  app : List IndirectSignedApprovalVote
  rng : Rng

/-- The ancestor walk of `unify_with_peer` from one fresh head: stop at
blocks outside the store, at or below the view's finalised number, or
already known by the peer; otherwise mark the peer aware and batch every
in-scope message.  The fuel bounds the walk; any fuel of at least the
store size is exact, because a revisited block stops the walk. -/
def unify_chain (topologies : SessionGridTopologies) (total_peers : Nat) (peer_id : PeerId)
    (view_finalized_number : BlockNumber) :
    Nat → Hash → UnifyState → UnifyState
  | 0, _, st => st
  | fuel + 1, block, st =>
    match mfind st.entries block with
    | none => st
    | some entry =>
      if !(decide (entry.number > view_finalized_number)) then st
      else if (mfind entry.known_by peer_id).isSome then st
      else
        let topology := topologies.get_topology entry.session
        let acc : UnifyAcc := ⟨PeerKnowledge.empty, st.asg, st.app, st.rng⟩
        let res := unify_process_candidates topology total_peers block peer_id
          entry.candidates 0 acc
        let acc := res.2
        let kb' := mput entry.known_by peer_id acc.pk
        let entry' := { entry with candidates := res.1, known_by := kb' }
        let st : UnifyState := ⟨mput st.entries block entry', acc.asg, acc.app, acc.rng⟩
        unify_chain topologies total_peers peer_id view_finalized_number fuel
          entry.parent_hash st

/-- Iterate the heads of the new view. -/
def unify_heads (topologies : SessionGridTopologies) (total_peers : Nat) (peer_id : PeerId)
    (view_finalized_number : BlockNumber) (fuel : Nat) :
    List Hash → UnifyState → UnifyState
  | [], st => st
  | h :: rest, st =>
    unify_heads topologies total_peers peer_id view_finalized_number fuel rest
      (unify_chain topologies total_peers peer_id view_finalized_number fuel h st)

/-- `unify_with_peer`: catch a peer up on every in-scope block, emitting
the assignments batch before the approvals batch. -/
def unify_with_peer (entries : List (Hash × BlockEntry)) (topologies : SessionGridTopologies)
    (total_peers : Nat) (peer_id : PeerId) (view : View) (rng : Rng) :
    List (Hash × BlockEntry) × List Output × Rng :=
  let fuel := entries.length + 1
  let st0 : UnifyState := ⟨entries, [], [], rng⟩
  let st := unify_heads topologies total_peers peer_id view.finalized_number fuel view.heads st0
  let outs1 := if st.asg.isEmpty then [] else [Output.SendAssignments [peer_id] st.asg]
  let outs2 := if st.app.isEmpty then [] else [Output.SendApprovals [peer_id] st.app]
  (st.entries, outs1 ++ outs2, st.rng)

/-! ### Routing adjustment and propagation -/

abbrev PeerAsgs := List (PeerId × List (IndirectAssignmentCert × CandidateIndex))
abbrev PeerApps := List (PeerId × List IndirectSignedApprovalVote)

/-- `entry(peer).or_insert_with(Vec::new).push(x)` on a per-peer packet
map. -/
def mapPush {α β : Type} [DecidableEq α] (m : List (α × List β)) (key : α) (x : β) :
    List (α × List β) :=
  mput m key ((mfind m key).getD [] ++ [x])

/-- The peer loop of `adjust_required_routing_and_propagate`: for every
aware peer in the required-routing set, batch the assignment and the
approval the peer does not know yet, marking them sent. -/
def adjust_peers (t : GridNeighbors) (required_routing : RequiredRouting)
    (message_subject : MessageSubject)
    (assignment_message : IndirectAssignmentCert × CandidateIndex)
    (approval_message : Option IndirectSignedApprovalVote) :
    List (PeerId × PeerKnowledge) → PeerAsgs → PeerApps →
    List (PeerId × PeerKnowledge) × PeerAsgs × PeerApps
  | [], pa, pp => ([], pa, pp)
  | (peer, pk) :: rest, pa, pp =>
    if !(t.route_to_peer required_routing peer) then
      let more := adjust_peers t required_routing message_subject assignment_message
        approval_message rest pa pp
      ((peer, pk) :: more.1, more.2)
    else
      let stage1 : PeerKnowledge × PeerAsgs :=
        if !(pk.contains message_subject MessageKind.Assignment) then
          ({ pk with sent := (pk.sent.insert message_subject MessageKind.Assignment).1 },
            mapPush pa peer assignment_message)
        else (pk, pa)
      let stage2 : PeerKnowledge × PeerApps :=
        match approval_message with
        | some am =>
          if !(stage1.1.contains message_subject MessageKind.Approval) then
            ({ stage1.1 with
                sent := (stage1.1.sent.insert message_subject MessageKind.Approval).1 },
              mapPush pp peer am)
          else (stage1.1, pp)
        | none => (stage1.1, pp)
      let more := adjust_peers t required_routing message_subject assignment_message
        approval_message rest stage1.2 stage2.2
      ((peer, stage2.1) :: more.1, more.2)

/-- The message loop of `adjust_required_routing_and_propagate`: apply
the routing modifier, skip empty routing or unknown topologies, and run
the peer loop. -/
def adjust_messages (topologies : SessionGridTopologies) (session : SessionIndex)
    (block_hash : Hash) (candidate_index : Nat)
    (routing_modifier : RequiredRouting → Bool → ValidatorIndex → RequiredRouting) :
    List (ValidatorIndex × MessageState) → List (PeerId × PeerKnowledge) → PeerAsgs → PeerApps →
    List (ValidatorIndex × MessageState) × List (PeerId × PeerKnowledge) × PeerAsgs × PeerApps
  | [], kb, pa, pp => ([], kb, pa, pp)
  | (validator, ms) :: rest, kb, pa, pp =>
    let ms := { ms with
      required_routing := routing_modifier ms.required_routing ms.local_msg validator }
    if ms.required_routing.is_empty then
      let more := adjust_messages topologies session block_hash candidate_index
        routing_modifier rest kb pa pp
      ((validator, ms) :: more.1, more.2)
    else
      match topologies.get_topology session with
      | none =>
        let more := adjust_messages topologies session block_hash candidate_index
          routing_modifier rest kb pa pp
        ((validator, ms) :: more.1, more.2)
      | some t =>
        let message_subject : MessageSubject := ⟨block_hash, candidate_index, validator⟩
        let assignment_message :=
          ((⟨block_hash, validator, ms.approval_state.assignment_cert⟩ :
              IndirectAssignmentCert), candidate_index)
        let approval_message := ms.approval_state.approval_signature.map
          (fun signature =>
            (⟨block_hash, candidate_index, validator, signature⟩ : IndirectSignedApprovalVote))
        let round := adjust_peers t ms.required_routing message_subject assignment_message
          approval_message kb pa pp
        let more := adjust_messages topologies session block_hash candidate_index
          routing_modifier rest round.1 round.2.1 round.2.2
        ((validator, ms) :: more.1, more.2)

/-- The candidate loop. -/
def adjust_candidates (topologies : SessionGridTopologies) (session : SessionIndex)
    (block_hash : Hash)
    (routing_modifier : RequiredRouting → Bool → ValidatorIndex → RequiredRouting) :
    List CandidateEntry → Nat → List (PeerId × PeerKnowledge) → PeerAsgs → PeerApps →
    List CandidateEntry × List (PeerId × PeerKnowledge) × PeerAsgs × PeerApps
  | [], _, kb, pa, pp => ([], kb, pa, pp)
  | ce :: rest, idx, kb, pa, pp =>
    let one := adjust_messages topologies session block_hash idx routing_modifier
      ce.messages kb pa pp
    let more := adjust_candidates topologies session block_hash routing_modifier rest
      (idx + 1) one.2.1 one.2.2.1 one.2.2.2
    (⟨one.1⟩ :: more.1, more.2)

/-- The block loop: the (possibly mutating) filter decides which blocks
participate. -/
def adjust_blocks (topologies : SessionGridTopologies)
    (block_filter : BlockEntry → BlockEntry × Bool)
    (routing_modifier : RequiredRouting → Bool → ValidatorIndex → RequiredRouting) :
    List (Hash × BlockEntry) → PeerAsgs → PeerApps →
    List (Hash × BlockEntry) × PeerAsgs × PeerApps
  | [], pa, pp => ([], pa, pp)
  | (h, b) :: rest, pa, pp =>
    let fres := block_filter b
    let b := fres.1
    if !fres.2 then
      let more := adjust_blocks topologies block_filter routing_modifier rest pa pp
      ((h, b) :: more.1, more.2)
    else
      let one := adjust_candidates topologies b.session h routing_modifier b.candidates 0
        b.known_by pa pp
      let b := { b with candidates := one.1, known_by := one.2.1 }
      let more := adjust_blocks topologies block_filter routing_modifier rest
        one.2.2.1 one.2.2.2
      ((h, b) :: more.1, more.2)

/-- `adjust_required_routing_and_propagate`: adjust routing on filtered
blocks and emit the accumulated packets, assignments preceding
approvals. -/
def adjust_required_routing_and_propagate (blocks : List (Hash × BlockEntry))
    (topologies : SessionGridTopologies)
    (block_filter : BlockEntry → BlockEntry × Bool)
    (routing_modifier : RequiredRouting → Bool → ValidatorIndex → RequiredRouting) :
    List (Hash × BlockEntry) × List Output :=
  let res := adjust_blocks topologies block_filter routing_modifier blocks [] []
  let outs := res.2.1.map (fun x => Output.SendAssignments [x.1] x.2) ++
    res.2.2.map (fun x => Output.SendApprovals [x.1] x.2)
  (res.1, outs)

/-! ### Aggression, session topology, block and view handlers -/

/-- `enable_aggression`: the resend pass and the L1/L2 escalation pass. -/
def State.enable_aggression (s : State) (resend : Resend) : State × List Output :=
  let min_age := s.blocks_by_number.head?.map Prod.fst
  let max_age := s.blocks_by_number.getLast?.map Prod.fst
  match min_age, max_age with
  | some minA, some maxA =>
    let config := s.aggression_config
    let diff := maxA - minA
    if !(config.is_age_relevant diff) then (s, [])
    else
      let pass1 := adjust_required_routing_and_propagate s.blocks s.topologies
        (fun block_entry =>
          if decide (resend = Resend.Yes) &&
              (match config.resend_unfinalized_period with
                | some p =>
                  decide (maxA - block_entry.number > 0) &&
                    decide ((maxA - block_entry.number) % p = 0)
                | none => false) then
            let kb' := block_entry.known_by.map
              (fun x => (x.1, { x.2 with sent := Knowledge.empty }))
            ({ block_entry with known_by := kb' }, true)
          else (block_entry, false))
        (fun rr _ _ => rr)
      let pass2 := adjust_required_routing_and_propagate pass1.1 s.topologies
        (fun block_entry => (block_entry, decide (block_entry.number = minA)))
        (fun rr local_msg _ =>
          if rr = RequiredRouting.PendingTopology then rr
          else
            let rr :=
              if (match config.l1_threshold with
                  | some t => decide (diff ≥ t)
                  | none => false) &&
                  local_msg && !(decide (rr = RequiredRouting.All)) then
                RequiredRouting.All
              else rr
            let rr :=
              if (match config.l2_threshold with
                  | some t => decide (diff ≥ t)
                  | none => false) &&
                  !local_msg && !(decide (rr = RequiredRouting.GridXY)) then
                RequiredRouting.GridXY
              else rr
            rr)
      ({ s with blocks := pass2.1 }, pass1.2 ++ pass2.2)
  | _, _ => (s, [])

/-- `handle_new_session_topology`: store the topology and resolve all
pending routings of the session. -/
def State.handle_new_session_topology (s : State) (session : SessionIndex)
    (topology : GridNeighbors) (local_index : Option ValidatorIndex) : State × List Output :=
  match local_index with
  | none => (s, [])
  | some _ =>
    let s := { s with topologies := s.topologies.insert_topology session topology }
    let res := adjust_required_routing_and_propagate s.blocks s.topologies
      (fun block_entry => (block_entry, decide (block_entry.session = session)))
      (fun rr local_msg validator_index =>
        if rr = RequiredRouting.PendingTopology then
          topology.required_routing_by_index validator_index local_msg
        else rr)
    ({ s with blocks := res.1 }, res.2)

/-- `handle_peer_view_change`: replace the stored view, prune the peer
from `known_by` of every block in the advanced finalised range, and
unify. -/
def State.handle_peer_view_change (s : State) (peer_id : PeerId) (view : View) (rng : Rng) :
    State × List Output × Rng :=
  let finalized_number := view.finalized_number
  let old_view := mfind s.peer_views peer_id
  let s := { s with peer_views := mput s.peer_views peer_id view }
  let old_finalized_number := (old_view.map View.finalized_number).getD 0
  let blocks :=
    if decide (old_finalized_number ≤ finalized_number) && !s.blocks.isEmpty then
      ((s.blocks_by_number.filter (fun kv =>
          decide (old_finalized_number ≤ kv.1) && decide (kv.1 ≤ finalized_number))).map
        Prod.snd).flatten.foldl
        (fun blocks h =>
          match mfind blocks h with
          | some entry => mput blocks h { entry with known_by := mdrop entry.known_by peer_id }
          | none => blocks)
        s.blocks
    else s.blocks
  let s := { s with blocks := blocks }
  let res := unify_with_peer s.blocks s.topologies s.peer_views.length peer_id view rng
  ({ s with blocks := res.1 }, res.2.1, res.2.2)

/-- Import the pending messages extracted for newly known blocks. -/
def import_pending : State → List (PeerId × PendingMessage) → Rng → State × List Output × Rng
  | s, [], rng => (s, [], rng)
  | s, (peer_id, message) :: rest, rng =>
    let one :=
      match message with
      | .Assignment assignment claimed_index =>
        s.start_assignment_import (.Peer peer_id) assignment claimed_index rng false
      | .Approval approval_vote =>
        let r := s.start_approval_import (.Peer peer_id) approval_vote false
        (r.1, r.2, rng)
    let more := import_pending one.1 rest one.2.2
    (more.1, one.2.1 ++ more.2.1, more.2.2)

/-- Unify each connected peer with the intersection of its view and the
new hashes. -/
def new_blocks_unify (topologies : SessionGridTopologies) (total_peers : Nat)
    (new_hashes : List Hash) :
    List (PeerId × View) → List (Hash × BlockEntry) → Rng →
    List (Hash × BlockEntry) × List Output × Rng
  | [], blocks, rng => (blocks, [], rng)
  | (peer_id, view) :: rest, blocks, rng =>
    let view_intersection : View :=
      ⟨view.heads.filter (fun h => new_hashes.contains h), view.finalized_number⟩
    let one := unify_with_peer blocks topologies total_peers peer_id view_intersection rng
    let more := new_blocks_unify topologies total_peers new_hashes rest one.1 one.2.2
    (more.1, one.2.1 ++ more.2.1, more.2.2)

/-- `handle_new_blocks`: create vacant entries, unify connected peers on
the new hashes, import the pending-known backlog, and run aggression
with resends allowed. -/
def State.handle_new_blocks (s : State) (metas : List BlockApprovalMeta) (rng : Rng) :
    State × List Output × Rng :=
  let inserted := metas.foldl
    (fun (acc : State × List Hash) meta =>
      match mfind acc.1.blocks meta.hash with
      | some _ => acc
      | none =>
        let entry : BlockEntry :=
          ⟨[], meta.number, meta.parent_hash, Knowledge.empty,
            List.replicate meta.candidates_count CandidateEntry.empty, meta.session⟩
        ({ acc.1 with
            blocks := mput acc.1.blocks meta.hash entry,
            topologies := acc.1.topologies.inc_session_refs meta.session,
            blocks_by_number := bbnPush acc.1.blocks_by_number meta.number meta.hash },
          acc.2 ++ [meta.hash]))
    (s, [])
  let s := inserted.1
  let new_hashes := inserted.2
  let uni := new_blocks_unify s.topologies s.peer_views.length new_hashes s.peer_views
    s.blocks rng
  let s := { s with blocks := uni.1 }
  let outs1 := uni.2.1
  let rng := uni.2.2
  let to_import :=
    ((s.pending_known.filter (fun kv => (mfind s.blocks kv.1).isSome)).map Prod.snd).flatten
  let s := { s with
    pending_known := s.pending_known.filter (fun kv => !(mfind s.blocks kv.1).isSome) }
  let imp := import_pending s to_import rng
  let s := imp.1
  let outs2 := imp.2.1
  let rng := imp.2.2
  let agg := s.enable_aggression Resend.Yes
  (agg.1, outs1 ++ outs2 ++ agg.2, rng)

/-- `handle_block_finalized`: prune every block up to and including the
finalised number, note outdated hashes, and move aggression forward. -/
def State.handle_block_finalized (s : State) (finalized_number : BlockNumber) :
    State × List Output :=
  let split_point := finalized_number + 1
  let old_blocks := s.blocks_by_number.filter (fun kv => decide (kv.1 < split_point))
  let kept := s.blocks_by_number.filter (fun kv => decide (split_point ≤ kv.1))
  let s := { s with blocks_by_number := kept }
  let s := ((old_blocks.map Prod.snd).flatten).foldl
    (fun s relay_block =>
      let s := { s with
        recent_outdated_blocks := note_outdated s.recent_outdated_blocks relay_block }
      match mfind s.blocks relay_block with
      | some block_entry =>
        { s with
          blocks := mdrop s.blocks relay_block,
          topologies := s.topologies.dec_session_refs block_entry.session }
      | none => s)
    s
  s.enable_aggression Resend.No

/-- `OurViewChange` handling: remember fresh heads as pending-known and
drop stale pending messages. -/
def State.handle_our_view_change (s : State) (view : View) : State :=
  let s := view.heads.foldl
    (fun s head =>
      if (mfind s.blocks head).isSome then s
      else
        match mfind s.pending_known head with
        | some _ => s
        | none => { s with pending_known := mput s.pending_known head [] })
    s
  { s with pending_known := s.pending_known.filter (fun kv => view.viewContains kv.1) }

/-- Inbound peer assignments: buffer for pending-known blocks, else run
the import pipeline. -/
def process_incoming_assignments :
    State → PeerId → List (IndirectAssignmentCert × CandidateIndex) → Rng →
    State × List Output × Rng
  | s, _, [], rng => (s, [], rng)
  | s, peer_id, (assignment, claimed_index) :: rest, rng =>
    let one :=
      match mfind s.pending_known assignment.block_hash with
      | some pending =>
        let pend' := mput s.pending_known assignment.block_hash
          (pending ++ [(peer_id, PendingMessage.Assignment assignment claimed_index)])
        ({ s with pending_known := pend' }, ([] : List Output), rng)
      | none => s.start_assignment_import (.Peer peer_id) assignment claimed_index rng false
    let more := process_incoming_assignments one.1 peer_id rest one.2.2
    (more.1, one.2.1 ++ more.2.1, more.2.2)

/-- Inbound peer approvals. -/
def process_incoming_approvals :
    State → PeerId → List IndirectSignedApprovalVote → State × List Output
  | s, _, [] => (s, [])
  | s, peer_id, approval_vote :: rest =>
    let one :=
      match mfind s.pending_known approval_vote.block_hash with
      | some pending =>
        let pend' := mput s.pending_known approval_vote.block_hash
          (pending ++ [(peer_id, PendingMessage.Approval approval_vote)])
        ({ s with pending_known := pend' }, ([] : List Output))
      | none => s.start_approval_import (.Peer peer_id) approval_vote false
    let more := process_incoming_approvals one.1 peer_id rest
    (more.1, one.2 ++ more.2)

/-- `get_approval_signatures`: collect the signatures of all approved
message states matching the requested indices. -/
def State.get_approval_signatures (s : State) (indices : List (Hash × CandidateIndex)) :
    List (ValidatorIndex × Signature) :=
  indices.foldl
    (fun all_sigs idx =>
      match mfind s.blocks idx.1 with
      | none => all_sigs
      | some block_entry =>
        match block_entry.candidates.get? idx.2 with
        | none => all_sigs
        | some candidate_entry =>
          candidate_entry.messages.foldl
            (fun acc vm =>
              match vm.2.approval_state with
              | .Approved _ sg => mput acc vm.1 sg
              | .Assigned _ => acc)
            all_sigs)
    []

/-! ### The event loop -/

/-- The dispatcher's drain loop after a completed check: pop queued
messages of the same subject and force-start them until a new check
becomes outstanding or the backlog empties.  Fuel of at least the
backlog length is exact, since forced starts never re-queue. -/
def drain_backlog : Nat → State → MessageSubject → Rng → State × List Output × Rng
  | 0, s, _, rng => (s, [], rng)
  | fuel + 1, s, message_subject, rng =>
    let popres := s.import_pipeline.pop_next_message message_subject
    let s := { s with import_pipeline := popres.1 }
    match popres.2 with
    | none => (s, [], rng)
    | some (peer_id, message) =>
      let one :=
        match message with
        | .Assignment assignment candidate_index =>
          s.start_assignment_import (.Peer peer_id) assignment candidate_index rng true
        | .Approval vote =>
          let r := s.start_approval_import (.Peer peer_id) vote true
          (r.1, r.2, rng)
      if !(one.1.import_pipeline.is_queue_idle message_subject) then one
      else
        let more := drain_backlog fuel one.1 message_subject one.2.2
        (more.1, one.2.1 ++ more.2.1, more.2.2)

/-- The events multiplexed by `run_inner`: overseer messages, network
bridge events, and completions (or cancellations) of the two ordered
check streams. -/
inductive Event
  | peerConnected (peer : PeerId)
  | peerDisconnected (peer : PeerId)
  | newGossipTopology (session : SessionIndex) (topology : GridNeighbors)
      (local_index : Option ValidatorIndex)
  | peerViewChange (peer : PeerId) (view : View)
  | ourViewChange (view : View)
  | peerMessageAssignments (peer : PeerId)
      (assignments : List (IndirectAssignmentCert × CandidateIndex))
  | peerMessageApprovals (peer : PeerId) (approvals : List IndirectSignedApprovalVote)
  | newBlocks (metas : List BlockApprovalMeta)
  | blockFinalized (number : BlockNumber)
  | distributeAssignment (cert : IndirectAssignmentCert) (candidate_index : CandidateIndex)
  | distributeApproval (vote : IndirectSignedApprovalVote)
  | getApprovalSignatures (indices : List (Hash × CandidateIndex))
  | assignmentCheckCompleted (result : Option AssignmentCheckResult)
  | approvalCheckCompleted (result : Option ApprovalCheckResult)

/-- One iteration of the `run_inner` select loop.  A completion event
with `none` models a dropped oneshot: the `Err(PendingCheckCanceled)`
arm, which only logs. -/
def step (s : State) (e : Event) (rng : Rng) : State × List Output × Rng :=
  match e with
  | .peerConnected peer =>
    (if (mfind s.peer_views peer).isSome then s
     else { s with peer_views := mput s.peer_views peer View.empty }, [], rng)
  | .peerDisconnected peer =>
    let s := { s with peer_views := mdrop s.peer_views peer }
    let blocks' := s.blocks.map
      (fun x => (x.1, { x.2 with known_by := mdrop x.2.known_by peer }))
    ({ s with blocks := blocks' }, [], rng)
  | .newGossipTopology session topology local_index =>
    let r := s.handle_new_session_topology session topology local_index
    (r.1, r.2, rng)
  | .peerViewChange peer view => s.handle_peer_view_change peer view rng
  | .ourViewChange view => (s.handle_our_view_change view, [], rng)
  | .peerMessageAssignments peer assignments =>
    process_incoming_assignments s peer assignments rng
  | .peerMessageApprovals peer approvals =>
    let r := process_incoming_approvals s peer approvals
    (r.1, r.2, rng)
  | .newBlocks metas => s.handle_new_blocks metas rng
  | .blockFinalized number =>
    let r := s.handle_block_finalized number
    (r.1, r.2, rng)
  | .distributeAssignment cert candidate_index =>
    s.start_assignment_import .Local cert candidate_index rng false
  | .distributeApproval vote =>
    let r := s.start_approval_import .Local vote false
    (r.1, r.2, rng)
  | .getApprovalSignatures indices =>
    (s, [.ApprovalSignaturesReply (s.get_approval_signatures indices)], rng)
  | .assignmentCheckCompleted result =>
    match s.import_pipeline.pending_assignment_checks with
    | [] => (s, [], rng)
    | check :: rest =>
      let s := { s with import_pipeline :=
        { s.import_pipeline with pending_assignment_checks := rest } }
      match result with
      | none => (s, [], rng)
      | some r =>
        let cres : PendingAssignmentCheckResult :=
          ⟨check.message_subject, check.peer_id, check.assignment,
            check.claimed_candidate_index, some r⟩
        let fin := s.finish_assignment_import_and_circulate cres rng
        let s := fin.1
        let s := { s with import_pipeline :=
          s.import_pipeline.set_queue_idle check.message_subject false }
        let fuel :=
          (match mfind s.import_pipeline.pending_messages check.message_subject with
            | some q => q.length
            | none => 0) + 1
        let dr := drain_backlog fuel s check.message_subject fin.2.2
        (dr.1, fin.2.1 ++ dr.2.1, dr.2.2)
  | .approvalCheckCompleted result =>
    match s.import_pipeline.pending_vote_checks with
    | [] => (s, [], rng)
    | check :: rest =>
      let s := { s with import_pipeline :=
        { s.import_pipeline with pending_vote_checks := rest } }
      match result with
      | none => (s, [], rng)
      | some r =>
        let cres : PendingApprovalCheckResult :=
          ⟨check.message_subject, check.peer_id, check.vote, some r⟩
        let fin := s.finish_approval_import_and_circulate cres
        let s := fin.1
        let s := { s with import_pipeline :=
          s.import_pipeline.set_queue_idle check.message_subject false }
        let fuel :=
          (match mfind s.import_pipeline.pending_messages check.message_subject with
            | some q => q.length
            | none => 0) + 1
        let dr := drain_backlog fuel s check.message_subject rng
        (dr.1, fin.2 ++ dr.2.1, dr.2.2)

/-- Run a sequence of events from a state, concatenating outputs. -/
def runEvents : State → List Event → Rng → State × List Output × Rng
  | s, [], rng => (s, [], rng)
  | s, e :: rest, rng =>
    let one := step s e rng
    let more := runEvents one.1 rest one.2.2
    (more.1, one.2.1 ++ more.2.1, more.2.2)

/-! ### Knowledge ledger lemmas -/

theorem Knowledge.insert_novel (k : Knowledge) (s : MessageSubject) (kind : MessageKind) :
    (k.insert s kind).2 = !(k.contains s kind) := by
  unfold Knowledge.insert Knowledge.contains
  cases h : mfind k.known_messages s with
  | none => cases kind <;> simp [h]
  | some old => cases old <;> cases kind <;> simp [h]

theorem Knowledge.contains_insert_self (k : Knowledge) (s : MessageSubject)
    (kind : MessageKind) : (k.insert s kind).1.contains s kind = true := by
  unfold Knowledge.insert Knowledge.contains
  cases h : mfind k.known_messages s with
  | none => cases kind <;> simp [h, mfind_mput_self]
  | some old => cases old <;> cases kind <;> simp [h, mfind_mput_self]

theorem Knowledge.contains_insert_other (k : Knowledge) (s s' : MessageSubject)
    (kind kind' : MessageKind) (hne : s' ≠ s) :
    (k.insert s kind).1.contains s' kind' = k.contains s' kind' := by
  have hput : ∀ kk, mfind (mput k.known_messages s kk) s' = mfind k.known_messages s' :=
    fun kk => mfind_mput_ne _ _ _ _ (fun hc => hne hc.symm)
  unfold Knowledge.insert Knowledge.contains
  cases h : mfind k.known_messages s with
  | none => cases kind' <;> simp [hput]
  | some old => cases old <;> cases kind <;> cases kind' <;> simp [h, hput]

theorem Knowledge.contains_insert_mono (k : Knowledge) (s s' : MessageSubject)
    (kind kind' : MessageKind) (h : k.contains s' kind' = true) :
    (k.insert s kind).1.contains s' kind' = true := by
  by_cases hs : s' = s
  · subst hs
    unfold Knowledge.contains at h
    unfold Knowledge.insert Knowledge.contains
    cases hl : mfind k.known_messages s' with
    | none => simp [hl] at h
    | some old =>
      cases old <;> cases kind <;> cases kind' <;>
        simp [hl, mfind_mput_self] at h ⊢
  · rw [Knowledge.contains_insert_other _ _ _ _ _ hs]
    exact h

theorem PeerKnowledge.contains_sent_insert_self (pk : PeerKnowledge) (s : MessageSubject)
    (kind : MessageKind) :
    ({ pk with sent := (pk.sent.insert s kind).1 } : PeerKnowledge).contains s kind = true := by
  unfold PeerKnowledge.contains
  simp [Knowledge.contains_insert_self]

theorem PeerKnowledge.contains_sent_insert_other (pk : PeerKnowledge) (s s' : MessageSubject)
    (kind kind' : MessageKind) (hne : s' ≠ s) :
    ({ pk with sent := (pk.sent.insert s kind).1 } : PeerKnowledge).contains s' kind' =
      pk.contains s' kind' := by
  unfold PeerKnowledge.contains
  simp [Knowledge.contains_insert_other _ _ _ _ _ hne]

/-! ### C6 — `Knowledge.insert` functional correctness -/

/-- C6: for every subject and kind, `Knowledge.insert` adds an entry when
the subject is absent, upgrades an existing `Assignment` entry to
`Approval`, never downgrades an `Approval` entry, and returns `true`
exactly when an insert or an upgrade occurred. -/
theorem knowledge_insert_spec (k : Knowledge) (s : MessageSubject) (kind : MessageKind) :
    (mfind k.known_messages s = none →
      mfind (k.insert s kind).1.known_messages s = some kind ∧ (k.insert s kind).2 = true) ∧
    (mfind k.known_messages s = some .Assignment →
      mfind (k.insert s .Approval).1.known_messages s = some .Approval ∧
        (k.insert s .Approval).2 = true) ∧
    (mfind k.known_messages s = some .Approval →
      mfind (k.insert s kind).1.known_messages s = some .Approval) ∧
    ((k.insert s kind).2 = true ↔
      mfind k.known_messages s = none ∨
        (mfind k.known_messages s = some .Assignment ∧ kind = .Approval)) := by
  refine ⟨?_, ?_, ?_, ?_⟩
  · intro h
    unfold Knowledge.insert
    simp [h, mfind_mput_self]
  · intro h
    unfold Knowledge.insert
    simp [h, mfind_mput_self]
  · intro h
    unfold Knowledge.insert
    cases kind <;> simp [h]
  · unfold Knowledge.insert
    cases h : mfind k.known_messages s with
    | none => simp [h]
    | some old => cases old <;> cases kind <;> simp [h]

/-- Witness for C6 at a concrete ledger: inserting into the empty ledger
stores the entry and reports novelty. -/
theorem knowledge_insert_spec_witness :
    mfind (Knowledge.empty).known_messages ⟨0, 0, 0⟩ = none ∧
    mfind ((Knowledge.empty.insert ⟨0, 0, 0⟩ .Assignment).1.known_messages) ⟨0, 0, 0⟩ =
      some .Assignment ∧
    (Knowledge.empty.insert ⟨0, 0, 0⟩ .Assignment).2 = true := by
  have h := (knowledge_insert_spec Knowledge.empty ⟨0, 0, 0⟩ .Assignment).1 (by decide)
  exact ⟨by decide, h.1, h.2⟩

/-! ### Output classification helpers -/

/-- Is this output a verifier request? -/
def Output.is_check_request : Output → Bool
  | .CheckAndImportAssignment _ _ => true
  | .CheckAndImportApproval _ => true
  | _ => false

/-- Does this output transmit the assignment of `subj` to peer `p`? -/
def isAssignmentSendTo (p : PeerId) (subj : MessageSubject) (o : Output) : Bool :=
  match o with
  | .SendAssignments peers asgs =>
    peers.contains p && asgs.any (fun a =>
      decide ((⟨a.1.block_hash, a.2, a.1.validator⟩ : MessageSubject) = subj))
  | _ => false

/-- Does this output transmit the approval of `subj` to peer `p`? -/
def isApprovalSendTo (p : PeerId) (subj : MessageSubject) (o : Output) : Bool :=
  match o with
  | .SendApprovals peers apps =>
    peers.contains p && apps.any (fun v =>
      decide ((⟨v.block_hash, v.candidate_index, v.validator⟩ : MessageSubject) = subj))
  | _ => false

/-- Number of transmissions of `(subj, Assignment)` to `p` over a list of
outputs (counting multiplicity inside each batch). -/
def countAssignmentSends (outs : List Output) (p : PeerId) (subj : MessageSubject) : Nat :=
  (outs.map (fun o =>
    match o with
    | .SendAssignments peers asgs =>
      if peers.contains p then
        (asgs.filter (fun a =>
          decide ((⟨a.1.block_hash, a.2, a.1.validator⟩ : MessageSubject) = subj))).length
      else 0
    | _ => 0)).sum

/-! ### C1 — approval without a known assignment -/

/-- C1 (amended): for an inbound peer approval whose subject's assignment
is not in our block knowledge, with the block entry and candidate present
and the subject's import queue idle and empty, the core calls its
reputation routine with `COST_UNEXPECTED_MESSAGE` — which
`modify_reputation` currently suppresses — so nothing at all is emitted:
no `ReportPeer` reaches the bridge, there is no outbound message and no
verifier call, and the state is unchanged. -/
theorem approval_without_assignment_suppressed (s : State) (peer : PeerId)
    (vote : IndirectSignedApprovalVote) (entry : BlockEntry)
    (hidle : s.import_pipeline.is_queue_idle
      ⟨vote.block_hash, vote.candidate_index, vote.validator⟩ = true)
    (hempty : s.import_pipeline.is_queue_empty
      ⟨vote.block_hash, vote.candidate_index, vote.validator⟩ = true)
    (hentry : mfind s.blocks vote.block_hash = some entry)
    (hcand : (entry.candidates.get? vote.candidate_index).isSome = true)
    (hknow : entry.knowledge.contains
      ⟨vote.block_hash, vote.candidate_index, vote.validator⟩ MessageKind.Assignment = false)
    (_houtdated : is_recent_outdated s.recent_outdated_blocks vote.block_hash = false) :
    s.start_approval_import (.Peer peer) vote false = (s, []) := by
  unfold State.start_approval_import
  simp only [List.get?_eq_getElem?] at hcand
  simp [hidle, hempty, hentry, hcand, hknow, MessageSource.peer_id,
    modify_reputation, COST_UNEXPECTED_MESSAGE]

/-- The events leading to the C1 scenario: block `0xAA` (hash 170,
number 1, one candidate) in view, peer 1 connected and aware of the
block, no assignment seen. -/
def cexC1_events : List Event :=
  [ .newBlocks [⟨170, 1, 0, 1, 0⟩],
    .peerConnected 1,
    .peerViewChange 1 ⟨[170], 0⟩ ]

def cexC1_state : State := (runEvents State.initial cexC1_events []).1

def cexC1_vote : IndirectSignedApprovalVote := ⟨170, 0, 7, 99⟩

def cexC1_entry : BlockEntry :=
  ⟨[(1, PeerKnowledge.empty)], 1, 0, Knowledge.empty, [CandidateEntry.empty], 0⟩

/-- C1 counterexample: peer 1 sends `Approvals([{block 170, ci 0, v 7}])`
before any assignment; the block entry exists, is not recently outdated,
and the assignment is unknown — yet the subsystem emits nothing, so no
`ReportPeer(1, COST_UNEXPECTED_MESSAGE)` is issued to the bridge,
contradicting the claim. -/
theorem approval_without_assignment_cex :
    (mfind cexC1_state.blocks 170).isSome = true ∧
    ((mfind cexC1_state.blocks 170).map
      (fun e => e.knowledge.contains ⟨170, 0, 7⟩ MessageKind.Assignment)) = some false ∧
    is_recent_outdated cexC1_state.recent_outdated_blocks 170 = false ∧
    (step cexC1_state (.peerMessageApprovals 1 [cexC1_vote]) []).2.1 = [] ∧
    Output.ReportPeer 1 COST_UNEXPECTED_MESSAGE ∉
      (step cexC1_state (.peerMessageApprovals 1 [cexC1_vote]) []).2.1 := by
  refine ⟨by decide, by decide, by decide, by decide, by decide⟩

/-- Witness for C1's amended theorem at the concrete scenario state. -/
theorem approval_without_assignment_suppressed_witness :
    State.start_approval_import cexC1_state (.Peer 1) cexC1_vote false = (cexC1_state, []) :=
  approval_without_assignment_suppressed cexC1_state 1 cexC1_vote cexC1_entry
    (by decide) (by decide) (by decide) (by decide) (by decide) (by decide)

/-! ### C2 — cancelled verifier checks -/

def bugC2_cert : IndirectAssignmentCert := ⟨170, 7, 5⟩

def bugC2_subj : MessageSubject := ⟨170, 0, 7⟩

/-- Peer 1's assignment starts a verifier check; peer 2's identical
assignment is queued behind it in the per-subject backlog. -/
def bugC2_events : List Event :=
  [ .newBlocks [⟨170, 1, 0, 1, 0⟩],
    .peerConnected 1, .peerConnected 2,
    .peerViewChange 1 ⟨[170], 0⟩, .peerViewChange 2 ⟨[170], 0⟩,
    .peerMessageAssignments 1 [(bugC2_cert, 0)],
    .peerMessageAssignments 2 [(bugC2_cert, 0)] ]

def bugC2_state : State := (runEvents State.initial bugC2_events []).1

/-- C2: when the verifier drops the oneshot of the outstanding check (a
completion with no result, i.e. `Err(PendingCheckCanceled)`), the event
loop keeps running and emits nothing — but the subject does **not**
become idle again: `is_queue_idle` stays `false`, the retained backlog
stays in place, and since the error arm of `run_inner` never clears
`pending_work` (the source marks this with TODO comments), the backlog
can never drain.  The spec's claim that the subject becomes idle is the
intended behaviour; the code deviates. -/
theorem pending_check_canceled_leaves_subject_busy :
    (bugC2_state.import_pipeline.pending_assignment_checks.map
      PendingAssignmentCheck.message_subject) = [bugC2_subj] ∧
    bugC2_state.import_pipeline.is_queue_idle bugC2_subj = false ∧
    mfind bugC2_state.import_pipeline.pending_messages bugC2_subj =
      some [(2, .Assignment bugC2_cert 0)] ∧
    (step bugC2_state (.assignmentCheckCompleted none) []).2.1 = [] ∧
    (step bugC2_state (.assignmentCheckCompleted none)
      []).1.import_pipeline.pending_assignment_checks = [] ∧
    (step bugC2_state (.assignmentCheckCompleted none)
      []).1.import_pipeline.is_queue_idle bugC2_subj = false ∧
    mfind (step bugC2_state (.assignmentCheckCompleted none)
      []).1.import_pipeline.pending_messages bugC2_subj =
      some [(2, .Assignment bugC2_cert 0)] := by
  refine ⟨by decide, by decide, by decide, by decide, by decide, by decide, by decide⟩

/-! ### Frame lemmas: the circulate functions only touch `blocks` -/

/-- The state carried by either side of a bookkeeping result. -/
def exceptStateOf : Except (State × List Output) (State × BlockEntry × List Output) → State
  | .error r => r.1
  | .ok r => r.1

theorem assignment_result_bookkeeping_frame (s : State) (entry : BlockEntry)
    (result : PendingAssignmentCheckResult) (bh : Hash) (ms : MessageSubject) :
    exceptStateOf (assignment_result_bookkeeping s entry result bh ms) =
      { s with blocks :=
          (exceptStateOf (assignment_result_bookkeeping s entry result bh ms)).blocks } := by
  unfold assignment_result_bookkeeping
  cases result.peer_id with
  | none => rfl
  | some pid =>
    cases result.result with
    | none => rfl
    | some r =>
      cases r <;> dsimp only <;>
        (try split) <;> (try split) <;> simp [exceptStateOf]

theorem approval_result_bookkeeping_frame (s : State) (entry : BlockEntry)
    (result : PendingApprovalCheckResult) (bh : Hash) (ms : MessageSubject) :
    exceptStateOf (approval_result_bookkeeping s entry result bh ms) =
      { s with blocks :=
          (exceptStateOf (approval_result_bookkeeping s entry result bh ms)).blocks } := by
  unfold approval_result_bookkeeping
  cases result.peer_id with
  | none => rfl
  | some pid =>
    cases result.result with
    | none => rfl
    | some r =>
      cases r <;> dsimp only <;>
        (try split) <;> (try split) <;> simp [exceptStateOf]

theorem finish_assignment_frame (s : State) (result : PendingAssignmentCheckResult)
    (rng : Rng) :
    (s.finish_assignment_import_and_circulate result rng).1 =
      { s with blocks := (s.finish_assignment_import_and_circulate result rng).1.blocks } := by
  unfold State.finish_assignment_import_and_circulate
  dsimp only
  cases hb : mfind s.blocks result.assignment.block_hash with
  | none => rfl
  | some entry =>
    dsimp only
    have hframe := assignment_result_bookkeeping_frame s entry result
      result.assignment.block_hash
      ⟨result.assignment.block_hash, result.claimed_candidate_index, result.assignment.validator⟩
    cases hbk : assignment_result_bookkeeping s entry result result.assignment.block_hash
        ⟨result.assignment.block_hash, result.claimed_candidate_index,
          result.assignment.validator⟩ with
    | error r =>
      rw [hbk] at hframe
      simp only [exceptStateOf] at hframe
      exact hframe
    | ok t =>
      rw [hbk] at hframe
      simp only [exceptStateOf] at hframe
      obtain ⟨s', entry', outs1⟩ := t
      dsimp only at hframe ⊢
      rw [hframe]
      split <;> rfl

theorem finish_approval_frame (s : State) (result : PendingApprovalCheckResult) :
    (s.finish_approval_import_and_circulate result).1 =
      { s with blocks := (s.finish_approval_import_and_circulate result).1.blocks } := by
  unfold State.finish_approval_import_and_circulate
  dsimp only
  cases hb : mfind s.blocks result.vote.block_hash with
  | none => rfl
  | some entry =>
    dsimp only
    have hframe := approval_result_bookkeeping_frame s entry result
      result.vote.block_hash result.message_subject
    cases hbk : approval_result_bookkeeping s entry result result.vote.block_hash
        result.message_subject with
    | error r =>
      rw [hbk] at hframe
      simp only [exceptStateOf] at hframe
      exact hframe
    | ok t =>
      rw [hbk] at hframe
      simp only [exceptStateOf] at hframe
      obtain ⟨s', entry', outs1⟩ := t
      dsimp only at hframe ⊢
      rw [hframe]
      split
      · rfl
      · split
        · rfl
        · split <;> rfl

theorem finish_assignment_pipeline (s : State) (result : PendingAssignmentCheckResult)
    (rng : Rng) :
    (s.finish_assignment_import_and_circulate result rng).1.import_pipeline =
      s.import_pipeline := by
  rw [finish_assignment_frame]

theorem finish_approval_pipeline (s : State) (result : PendingApprovalCheckResult) :
    (s.finish_approval_import_and_circulate result).1.import_pipeline =
      s.import_pipeline := by
  rw [finish_approval_frame]

/-! ### No verifier requests from the circulate functions -/

/-- The outputs carried by either side of a bookkeeping result. -/
def exceptOutsOf : Except (State × List Output) (State × BlockEntry × List Output) → List Output
  | .error r => r.2
  | .ok t => t.2.2

theorem modify_reputation_no_check (p : PeerId) (r : Rep) :
    ∀ o ∈ modify_reputation p r, o.is_check_request = false := by
  cases r <;> simp [modify_reputation, Output.is_check_request]

theorem assignment_result_bookkeeping_no_check (s : State) (entry : BlockEntry)
    (result : PendingAssignmentCheckResult) (bh : Hash) (ms : MessageSubject) :
    ∀ o ∈ exceptOutsOf (assignment_result_bookkeeping s entry result bh ms),
      o.is_check_request = false := by
  unfold assignment_result_bookkeeping
  cases result.peer_id with
  | none => simp [exceptOutsOf]
  | some pid =>
    cases result.result with
    | none => simp [exceptOutsOf]
    | some r =>
      cases r <;> dsimp only <;> (try split) <;> (try split) <;>
        simp [exceptOutsOf, modify_reputation, Output.is_check_request,
          BENEFIT_VALID_MESSAGE_FIRST, COST_ASSIGNMENT_TOO_FAR_IN_THE_FUTURE,
          COST_INVALID_MESSAGE]

theorem approval_result_bookkeeping_no_check (s : State) (entry : BlockEntry)
    (result : PendingApprovalCheckResult) (bh : Hash) (ms : MessageSubject) :
    ∀ o ∈ exceptOutsOf (approval_result_bookkeeping s entry result bh ms),
      o.is_check_request = false := by
  unfold approval_result_bookkeeping
  cases result.peer_id with
  | none => simp [exceptOutsOf]
  | some pid =>
    cases result.result with
    | none => simp [exceptOutsOf]
    | some r =>
      cases r <;> dsimp only <;> (try split) <;> (try split) <;>
        simp [exceptOutsOf, modify_reputation, Output.is_check_request,
          BENEFIT_VALID_MESSAGE_FIRST, COST_INVALID_MESSAGE]

theorem finish_assignment_no_check (s : State) (result : PendingAssignmentCheckResult)
    (rng : Rng) :
    ∀ o ∈ (s.finish_assignment_import_and_circulate result rng).2.1,
      o.is_check_request = false := by
  unfold State.finish_assignment_import_and_circulate
  dsimp only
  cases hb : mfind s.blocks result.assignment.block_hash with
  | none => simp
  | some entry =>
    dsimp only
    have hno := assignment_result_bookkeeping_no_check s entry result
      result.assignment.block_hash
      ⟨result.assignment.block_hash, result.claimed_candidate_index, result.assignment.validator⟩
    cases hbk : assignment_result_bookkeeping s entry result result.assignment.block_hash
        ⟨result.assignment.block_hash, result.claimed_candidate_index,
          result.assignment.validator⟩ with
    | error r =>
      rw [hbk] at hno
      simp only [exceptOutsOf] at hno
      exact hno
    | ok t =>
      rw [hbk] at hno
      simp only [exceptOutsOf] at hno
      obtain ⟨s', entry', outs1⟩ := t
      dsimp only at hno ⊢
      split
      · exact hno
      · intro o ho
        rcases List.mem_append.mp ho with h | h
        · exact hno o h
        · revert h
          split <;> intro h
          · simp at h
          · simp at h
            simp [h, Output.is_check_request]

theorem finish_approval_no_check (s : State) (result : PendingApprovalCheckResult) :
    ∀ o ∈ (s.finish_approval_import_and_circulate result).2,
      o.is_check_request = false := by
  unfold State.finish_approval_import_and_circulate
  dsimp only
  cases hb : mfind s.blocks result.vote.block_hash with
  | none => simp
  | some entry =>
    dsimp only
    have hno := approval_result_bookkeeping_no_check s entry result
      result.vote.block_hash result.message_subject
    cases hbk : approval_result_bookkeeping s entry result result.vote.block_hash
        result.message_subject with
    | error r =>
      rw [hbk] at hno
      simp only [exceptOutsOf] at hno
      exact hno
    | ok t =>
      rw [hbk] at hno
      simp only [exceptOutsOf] at hno
      obtain ⟨s', entry', outs1⟩ := t
      dsimp only at hno ⊢
      split
      · exact hno
      · split
        · exact hno
        · intro o ho
          rcases List.mem_append.mp ho with h | h
          · exact hno o h
          · revert h
            split <;> intro h
            · simp at h
            · simp at h
              simp [h, Output.is_check_request]

/-! ### The local import paths -/

theorem assignment_result_bookkeeping_local (s : State) (entry : BlockEntry)
    (result : PendingAssignmentCheckResult) (bh : Hash) (ms : MessageSubject)
    (hpeer : result.peer_id = none) :
    assignment_result_bookkeeping s entry result bh ms = .ok (s, entry, []) := by
  unfold assignment_result_bookkeeping
  rw [hpeer]

theorem approval_result_bookkeeping_local (s : State) (entry : BlockEntry)
    (result : PendingApprovalCheckResult) (bh : Hash) (ms : MessageSubject)
    (hpeer : result.peer_id = none) :
    approval_result_bookkeeping s entry result bh ms = .ok (s, entry, []) := by
  unfold approval_result_bookkeeping
  rw [hpeer]

theorem finish_assignment_knowledge_local (s : State) (result : PendingAssignmentCheckResult)
    (rng : Rng) (hpeer : result.peer_id = none) (h' : Hash) :
    ((mfind (s.finish_assignment_import_and_circulate result rng).1.blocks h').map
        BlockEntry.knowledge) =
      ((mfind s.blocks h').map BlockEntry.knowledge) := by
  unfold State.finish_assignment_import_and_circulate
  dsimp only
  cases hb : mfind s.blocks result.assignment.block_hash with
  | none => rfl
  | some entry =>
    dsimp only
    rw [assignment_result_bookkeeping_local s entry result _ _ hpeer]
    dsimp only
    split
    · rfl
    · by_cases hh : h' = result.assignment.block_hash
      · subst hh
        rw [mfind_mput_self, hb]
        rfl
      · rw [mfind_mput_ne _ _ _ _ (fun hc => hh hc.symm)]

theorem finish_approval_knowledge_local (s : State) (result : PendingApprovalCheckResult)
    (hpeer : result.peer_id = none) (h' : Hash) :
    ((mfind (s.finish_approval_import_and_circulate result).1.blocks h').map
        BlockEntry.knowledge) =
      ((mfind s.blocks h').map BlockEntry.knowledge) := by
  unfold State.finish_approval_import_and_circulate
  dsimp only
  cases hb : mfind s.blocks result.vote.block_hash with
  | none => rfl
  | some entry =>
    dsimp only
    rw [approval_result_bookkeeping_local s entry result _ _ hpeer]
    dsimp only
    split
    · rfl
    · split
      · rfl
      · by_cases hh : h' = result.vote.block_hash
        · subst hh
          rw [mfind_mput_self, hb]
          rfl
        · rw [mfind_mput_ne _ _ _ _ (fun hc => hh hc.symm)]

theorem finish_assignment_contains_local (s : State) (result : PendingAssignmentCheckResult)
    (rng : Rng) (hpeer : result.peer_id = none) (h' : Hash) (subj : MessageSubject)
    (kind : MessageKind) :
    ((mfind (s.finish_assignment_import_and_circulate result rng).1.blocks h').map
        (fun e => e.knowledge.contains subj kind)) =
      ((mfind s.blocks h').map (fun e => e.knowledge.contains subj kind)) := by
  have h := finish_assignment_knowledge_local s result rng hpeer h'
  cases hx : mfind (s.finish_assignment_import_and_circulate result rng).1.blocks h' with
  | none =>
    cases hy : mfind s.blocks h' with
    | none => simp
    | some e =>
      rw [hx, hy] at h
      simp at h
  | some e1 =>
    cases hy : mfind s.blocks h' with
    | none =>
      rw [hx, hy] at h
      simp at h
    | some e2 =>
      rw [hx, hy] at h
      simp at h
      simp [h]

theorem finish_approval_contains_local (s : State) (result : PendingApprovalCheckResult)
    (hpeer : result.peer_id = none) (h' : Hash) (subj : MessageSubject)
    (kind : MessageKind) :
    ((mfind (s.finish_approval_import_and_circulate result).1.blocks h').map
        (fun e => e.knowledge.contains subj kind)) =
      ((mfind s.blocks h').map (fun e => e.knowledge.contains subj kind)) := by
  have h := finish_approval_knowledge_local s result hpeer h'
  cases hx : mfind (s.finish_approval_import_and_circulate result).1.blocks h' with
  | none =>
    cases hy : mfind s.blocks h' with
    | none => simp
    | some e =>
      rw [hx, hy] at h
      simp at h
  | some e1 =>
    cases hy : mfind s.blocks h' with
    | none =>
      rw [hx, hy] at h
      simp at h
    | some e2 =>
      rw [hx, hy] at h
      simp at h
      simp [h]

theorem start_assignment_local_pipeline (s : State) (cert : IndirectAssignmentCert)
    (ci : CandidateIndex) (rng : Rng) (force : Bool) :
    (s.start_assignment_import .Local cert ci rng force).1.import_pipeline =
      s.import_pipeline := by
  unfold State.start_assignment_import
  simp only [MessageSource.peer_id, Option.isSome_none, Bool.and_false, Bool.false_eq_true,
    if_false]
  cases hb : mfind s.blocks cert.block_hash with
  | none => rfl
  | some entry =>
    dsimp only
    split
    · rfl
    · rw [finish_assignment_pipeline]

theorem start_approval_local_pipeline (s : State) (vote : IndirectSignedApprovalVote)
    (force : Bool) :
    (s.start_approval_import .Local vote force).1.import_pipeline = s.import_pipeline := by
  unfold State.start_approval_import
  simp only [MessageSource.peer_id, Option.isSome_none, Bool.and_false, Bool.false_eq_true,
    if_false]
  cases hb : mfind s.blocks vote.block_hash with
  | none => rfl
  | some entry =>
    dsimp only
    split
    · rfl
    · split
      · rfl
      · rw [finish_approval_pipeline]

theorem start_assignment_local_no_check (s : State) (cert : IndirectAssignmentCert)
    (ci : CandidateIndex) (rng : Rng) (force : Bool) :
    ∀ o ∈ (s.start_assignment_import .Local cert ci rng force).2.1,
      o.is_check_request = false := by
  unfold State.start_assignment_import
  simp only [MessageSource.peer_id, Option.isSome_none, Bool.and_false, Bool.false_eq_true,
    if_false]
  cases hb : mfind s.blocks cert.block_hash with
  | none => simp
  | some entry =>
    dsimp only
    split
    · simp
    · exact finish_assignment_no_check _ _ _

theorem start_approval_local_no_check (s : State) (vote : IndirectSignedApprovalVote)
    (force : Bool) :
    ∀ o ∈ (s.start_approval_import .Local vote force).2, o.is_check_request = false := by
  unfold State.start_approval_import
  simp only [MessageSource.peer_id, Option.isSome_none, Bool.and_false, Bool.false_eq_true,
    if_false]
  cases hb : mfind s.blocks vote.block_hash with
  | none => simp
  | some entry =>
    dsimp only
    split
    · simp
    · split
      · simp
      · exact finish_approval_no_check _ _

/-! ### C10 — local messages bypass the pipeline and the verifier -/

/-- C10: a locally originated message (`DistributeAssignment` or
`DistributeApproval`) bypasses the import pipeline and the external
verifier: the pipeline (and in particular every per-subject backlog) is
untouched, no `CheckAndImportAssignment` or `CheckAndImportApproval`
request is emitted, the message is inserted directly into our own block
knowledge when its block entry exists, and when the subject is already
known at that kind the message is dropped with no outbound distribution
and no state change. -/
theorem local_messages_bypass_pipeline :
    (∀ (s : State) (cert : IndirectAssignmentCert) (ci : CandidateIndex) (rng : Rng),
      (s.start_assignment_import .Local cert ci rng false).1.import_pipeline =
          s.import_pipeline ∧
        ∀ o ∈ (s.start_assignment_import .Local cert ci rng false).2.1,
          o.is_check_request = false) ∧
    (∀ (s : State) (vote : IndirectSignedApprovalVote),
      (s.start_approval_import .Local vote false).1.import_pipeline = s.import_pipeline ∧
        ∀ o ∈ (s.start_approval_import .Local vote false).2, o.is_check_request = false) ∧
    (∀ (s : State) (cert : IndirectAssignmentCert) (ci : CandidateIndex) (rng : Rng)
        (entry : BlockEntry), mfind s.blocks cert.block_hash = some entry →
      ((mfind (s.start_assignment_import .Local cert ci rng false).1.blocks
            cert.block_hash).map
          (fun e => e.knowledge.contains ⟨cert.block_hash, ci, cert.validator⟩
            MessageKind.Assignment)) = some true) ∧
    (∀ (s : State) (cert : IndirectAssignmentCert) (ci : CandidateIndex) (rng : Rng)
        (entry : BlockEntry), mfind s.blocks cert.block_hash = some entry →
      entry.knowledge.contains ⟨cert.block_hash, ci, cert.validator⟩ MessageKind.Assignment =
          true →
      s.start_assignment_import .Local cert ci rng false = (s, [], rng)) ∧
    (∀ (s : State) (vote : IndirectSignedApprovalVote) (entry : BlockEntry),
      mfind s.blocks vote.block_hash = some entry →
      (entry.candidates.get? vote.candidate_index).isSome = true →
      ((mfind (s.start_approval_import .Local vote false).1.blocks vote.block_hash).map
          (fun e => e.knowledge.contains
            ⟨vote.block_hash, vote.candidate_index, vote.validator⟩
            MessageKind.Approval)) = some true) ∧
    (∀ (s : State) (vote : IndirectSignedApprovalVote) (entry : BlockEntry),
      mfind s.blocks vote.block_hash = some entry →
      (entry.candidates.get? vote.candidate_index).isSome = true →
      entry.knowledge.contains ⟨vote.block_hash, vote.candidate_index, vote.validator⟩
          MessageKind.Approval = true →
      s.start_approval_import .Local vote false = (s, [])) := by
  refine ⟨fun s cert ci rng =>
      ⟨start_assignment_local_pipeline s cert ci rng false,
        start_assignment_local_no_check s cert ci rng false⟩,
    fun s vote =>
      ⟨start_approval_local_pipeline s vote false, start_approval_local_no_check s vote false⟩,
    ?_, ?_, ?_, ?_⟩
  · intro s cert ci rng entry hentry
    unfold State.start_assignment_import
    simp only [MessageSource.peer_id, Option.isSome_none, Bool.and_false, Bool.false_eq_true,
      if_false]
    rw [hentry]
    dsimp only
    by_cases hnov :
        (entry.knowledge.insert ⟨cert.block_hash, ci, cert.validator⟩ .Assignment).2 = true
    · rw [if_neg (by simp [hnov])]
      rw [finish_assignment_contains_local _
        ⟨⟨cert.block_hash, ci, cert.validator⟩, none, cert, ci, none⟩ rng rfl]
      have hcont := Knowledge.contains_insert_self entry.knowledge
        ⟨cert.block_hash, ci, cert.validator⟩ .Assignment
      dsimp only
      rw [mfind_mput_self]
      simp [hcont]
    · have hfalse : (entry.knowledge.insert ⟨cert.block_hash, ci, cert.validator⟩
          .Assignment).2 = false := by
        cases h : (entry.knowledge.insert ⟨cert.block_hash, ci, cert.validator⟩ .Assignment).2
        · rfl
        · exact absurd h hnov
      rw [if_pos (by simp [hfalse])]
      have : entry.knowledge.contains ⟨cert.block_hash, ci, cert.validator⟩
          .Assignment = true := by
        have := Knowledge.insert_novel entry.knowledge
          ⟨cert.block_hash, ci, cert.validator⟩ .Assignment
        rw [hfalse] at this
        cases h : entry.knowledge.contains ⟨cert.block_hash, ci, cert.validator⟩ .Assignment
        · rw [h] at this
          simp at this
        · rfl
      simp [hentry, this]
  · intro s cert ci rng entry hentry hknown
    have hfalse : (entry.knowledge.insert ⟨cert.block_hash, ci, cert.validator⟩
        .Assignment).2 = false := by
      rw [Knowledge.insert_novel, hknown]
      rfl
    unfold State.start_assignment_import
    simp only [MessageSource.peer_id, Option.isSome_none, Bool.and_false, Bool.false_eq_true,
      if_false]
    rw [hentry]
    dsimp only
    rw [if_pos (by simp [hfalse])]
  · intro s vote entry hentry hcand
    unfold State.start_approval_import
    simp only [MessageSource.peer_id, Option.isSome_none, Bool.and_false, Bool.false_eq_true,
      if_false]
    rw [hentry]
    dsimp only
    rw [if_pos hcand]
    dsimp only
    by_cases hnov : (entry.knowledge.insert
        ⟨vote.block_hash, vote.candidate_index, vote.validator⟩ .Approval).2 = true
    · rw [if_neg (by simp [hnov])]
      rw [finish_approval_contains_local _
        ⟨⟨vote.block_hash, vote.candidate_index, vote.validator⟩, none, vote, none⟩ rfl]
      have hcont := Knowledge.contains_insert_self entry.knowledge
        ⟨vote.block_hash, vote.candidate_index, vote.validator⟩ .Approval
      dsimp only
      rw [mfind_mput_self]
      simp [hcont]
    · have hfalse : (entry.knowledge.insert
          ⟨vote.block_hash, vote.candidate_index, vote.validator⟩ .Approval).2 = false := by
        cases h : (entry.knowledge.insert
            ⟨vote.block_hash, vote.candidate_index, vote.validator⟩ .Approval).2
        · rfl
        · exact absurd h hnov
      rw [if_pos (by simp [hfalse])]
      have : entry.knowledge.contains
          ⟨vote.block_hash, vote.candidate_index, vote.validator⟩ .Approval = true := by
        have := Knowledge.insert_novel entry.knowledge
          ⟨vote.block_hash, vote.candidate_index, vote.validator⟩ .Approval
        rw [hfalse] at this
        cases h : entry.knowledge.contains
            ⟨vote.block_hash, vote.candidate_index, vote.validator⟩ .Approval
        · rw [h] at this
          simp at this
        · rfl
      simp [hentry, this]
  · intro s vote entry hentry hcand hknown
    have hfalse : (entry.knowledge.insert
        ⟨vote.block_hash, vote.candidate_index, vote.validator⟩ .Approval).2 = false := by
      rw [Knowledge.insert_novel, hknown]
      rfl
    unfold State.start_approval_import
    simp only [MessageSource.peer_id, Option.isSome_none, Bool.and_false, Bool.false_eq_true,
      if_false]
    rw [hentry]
    dsimp only
    rw [if_pos hcand]
    dsimp only
    rw [if_pos (by simp [hfalse])]

/-! ### C9 — the `Assigned` to `Approved` upgrade preserves routing state -/

/-- C9: when an approval import upgrades a `MessageState` from
`Assigned(cert)` to `Approved(cert, signature)`, the `required_routing`,
`local` and `random_routing` fields of that `MessageState` are preserved
unchanged across the upgrade and the assignment certificate is
retained. -/
theorem approval_upgrade_preserves_routing_state (s s1 : State)
    (result : PendingApprovalCheckResult) (entry entry1 : BlockEntry) (ce : CandidateEntry)
    (ms : MessageState) (cert : Cert) (outs1 : List Output)
    (hentry : mfind s.blocks result.vote.block_hash = some entry)
    (hok : approval_result_bookkeeping s entry result result.vote.block_hash
      result.message_subject = .ok (s1, entry1, outs1))
    (hce : entry1.candidates.get? result.vote.candidate_index = some ce)
    (hms : mfind ce.messages result.vote.validator = some ms)
    (hassigned : ms.approval_state = .Assigned cert) :
    ∃ entry' ce',
      mfind (s.finish_approval_import_and_circulate result).1.blocks
          result.vote.block_hash = some entry' ∧
      entry'.candidates.get? result.vote.candidate_index = some ce' ∧
      mfind ce'.messages result.vote.validator =
        some ⟨ms.required_routing, ms.local_msg, ms.random_routing,
          .Approved cert result.vote.signature⟩ := by
  have hlt : result.vote.candidate_index < entry1.candidates.length := by
    rcases List.get?_eq_some.mp hce with ⟨h, _⟩
    exact h
  unfold State.finish_approval_import_and_circulate
  dsimp only
  rw [hentry]
  dsimp only
  rw [hok]
  dsimp only
  rw [hce]
  dsimp only
  rw [hms]
  dsimp only
  rw [hassigned]
  dsimp only
  refine ⟨_, ⟨mput ce.messages result.vote.validator
      ⟨ms.required_routing, ms.local_msg, ms.random_routing,
        .Approved cert result.vote.signature⟩⟩, mfind_mput_self _ _ _, ?_, ?_⟩
  · rw [List.get?_eq_getElem?]
    exact List.getElem?_set_eq_of_lt _ hlt
  · exact mfind_mput_self _ _ _

/-- A tiny concrete state for the C9 witness: one block with a single
assigned message carrying non-default routing state. -/
def c9_ms : MessageState := ⟨.GridX, true, ⟨2⟩, .Assigned 5⟩

def c9_entry : BlockEntry :=
  ⟨[], 1, 0, ⟨[(⟨170, 0, 7⟩, .Approval)]⟩, [⟨[(7, c9_ms)]⟩], 0⟩

def c9_state : State := { State.initial with blocks := [(170, c9_entry)] }

def c9_result : PendingApprovalCheckResult := ⟨⟨170, 0, 7⟩, none, ⟨170, 0, 7, 99⟩, none⟩

/-- Witness for C9 at the concrete state. -/
theorem approval_upgrade_preserves_routing_state_witness :
    ∃ entry' ce',
      mfind (c9_state.finish_approval_import_and_circulate c9_result).1.blocks 170 =
          some entry' ∧
      entry'.candidates.get? 0 = some ce' ∧
      mfind ce'.messages 7 =
        some ⟨c9_ms.required_routing, c9_ms.local_msg, c9_ms.random_routing,
          .Approved 5 99⟩ :=
  approval_upgrade_preserves_routing_state c9_state c9_state c9_result c9_entry c9_entry
    ⟨[(7, c9_ms)]⟩ c9_ms 5 [] (by rfl) (by rfl) (by rfl) (by rfl) (by rfl)

/-- Witness for C10 at concrete inputs: a local assignment on a present
block, both fresh and already-known. -/
theorem local_messages_bypass_pipeline_witness :
    (State.start_assignment_import cexC1_state .Local ⟨170, 7, 5⟩ 0 [] false).1.import_pipeline =
      cexC1_state.import_pipeline ∧
    ((mfind (State.start_assignment_import cexC1_state .Local ⟨170, 7, 5⟩ 0 []
          false).1.blocks 170).map
        (fun e => e.knowledge.contains ⟨170, 0, 7⟩ MessageKind.Assignment)) = some true := by
  refine ⟨(local_messages_bypass_pipeline.1 cexC1_state ⟨170, 7, 5⟩ 0 []).1, ?_⟩
  exact local_messages_bypass_pipeline.2.2.1 cexC1_state ⟨170, 7, 5⟩ 0 [] cexC1_entry
    (by decide)

/-! ### Lemmas about the sent-marking pass -/

theorem mark_sent_fold_preserve (subj : MessageSubject) (kind : MessageKind)
    (peers : List PeerId) (kb : List (PeerId × PeerKnowledge)) (q : PeerId)
    (hq : q ∉ peers) :
    mfind (mark_sent_fold subj kind peers kb).1 q = mfind kb q := by
  induction peers generalizing kb with
  | nil => rfl
  | cons p rest ih =>
    have hqr : q ∉ rest := fun h => hq (List.mem_cons_of_mem _ h)
    have hqp : q ≠ p := fun h => hq (h ▸ List.mem_cons_self p rest)
    unfold mark_sent_fold
    cases hf : mfind kb p with
    | none => exact ih _ hqr
    | some pk =>
      dsimp only
      split
      · rw [ih _ hqr, mfind_mput_ne _ _ _ _ (fun hc => hqp hc.symm)]
      · exact ih _ hqr

theorem mark_sent_fold_sel_sublist (subj : MessageSubject) (kind : MessageKind)
    (peers : List PeerId) (kb : List (PeerId × PeerKnowledge)) :
    (mark_sent_fold subj kind peers kb).2.Sublist peers := by
  induction peers generalizing kb with
  | nil => simp [mark_sent_fold]
  | cons p rest ih =>
    unfold mark_sent_fold
    cases hf : mfind kb p with
    | none => exact (ih kb).trans (List.sublist_cons_self p rest)
    | some pk =>
      dsimp only
      split
      · exact List.Sublist.cons₂ p (ih _)
      · exact (ih kb).trans (List.sublist_cons_self p rest)

theorem mark_sent_fold_mem (subj : MessageSubject) (kind : MessageKind)
    (peers : List PeerId) (kb : List (PeerId × PeerKnowledge))
    (hnd : peers.Nodup) (p : PeerId)
    (hp : p ∈ (mark_sent_fold subj kind peers kb).2) :
    ∃ pk, mfind kb p = some pk ∧ pk.contains subj kind = false ∧
      mfind (mark_sent_fold subj kind peers kb).1 p =
        some { pk with sent := (pk.sent.insert subj kind).1 } := by
  induction peers generalizing kb with
  | nil => simp [mark_sent_fold] at hp
  | cons q rest ih =>
    have hqr : q ∉ rest := (List.nodup_cons.mp hnd).1
    have hndr : rest.Nodup := (List.nodup_cons.mp hnd).2
    unfold mark_sent_fold at hp ⊢
    cases hf : mfind kb q with
    | none =>
      rw [hf] at hp
      exact ih _ hndr hp
    | some pk =>
      rw [hf] at hp
      dsimp only at hp ⊢
      by_cases hc : pk.contains subj kind = false
      · rw [if_pos (by simp [hc])] at hp
        rw [if_pos (by simp [hc])]
        rcases List.mem_cons.mp hp with hpq | hprest
        · subst hpq
          refine ⟨pk, hf, hc, ?_⟩
          rw [mark_sent_fold_preserve _ _ _ _ _ hqr, mfind_mput_self]
        · have hpmem : p ∈ rest :=
            (mark_sent_fold_sel_sublist subj kind rest _).subset hprest
          have hpq : p ≠ q := fun h => hqr (h ▸ hpmem)
          obtain ⟨pk', h1, h2, h3⟩ := ih _ hndr hprest
          rw [mfind_mput_ne _ _ _ _ (fun hc2 => hpq hc2.symm)] at h1
          exact ⟨pk', h1, h2, h3⟩
      · have hc' : pk.contains subj kind = true := by
          cases h : pk.contains subj kind
          · exact absurd h hc
          · rfl
        rw [if_neg (by simp [hc'])] at hp
        rw [if_neg (by simp [hc'])]
        exact ih _ hndr hp

/-! ### C3 counterexample — the same (subject, kind) transmitted twice -/

/-- A locally distributed assignment reaches peer 1 through unification
(the random router fires on the seeded generator); the peer disconnects,
reconnects, re-announces the same view, and receives the identical
assignment a second time. -/
def cexC3_events : List Event :=
  [ .peerConnected 1,
    .newBlocks [⟨170, 1, 0, 1, 0⟩],
    .distributeAssignment ⟨170, 7, 5⟩ 0,
    .peerViewChange 1 ⟨[170], 0⟩,
    .peerDisconnected 1,
    .peerConnected 1,
    .peerViewChange 1 ⟨[170], 0⟩ ]

/-- C3 counterexample: over this execution from the initial state, the
pair `((170, 0, 7), Assignment)` is transmitted to peer 1 twice, so the
at-most-once claim fails for the whole execution. -/
theorem transmit_twice_after_reconnect_cex :
    countAssignmentSends (runEvents State.initial cexC3_events [true, true]).2.1 1
      ⟨170, 0, 7⟩ = 2 := by decide

/-! ### C3 amended — circulation is knowledge-guarded -/

theorem modify_reputation_only_reports (p : PeerId) (r : Rep) :
    ∀ o ∈ modify_reputation p r, ∃ q rr, o = Output.ReportPeer q rr := by
  cases r <;> simp [modify_reputation]

theorem assignment_result_bookkeeping_only_reports (s : State) (entry : BlockEntry)
    (result : PendingAssignmentCheckResult) (bh : Hash) (ms : MessageSubject) :
    ∀ o ∈ exceptOutsOf (assignment_result_bookkeeping s entry result bh ms),
      ∃ q rr, o = Output.ReportPeer q rr := by
  unfold assignment_result_bookkeeping
  cases result.peer_id with
  | none => simp [exceptOutsOf]
  | some pid =>
    cases result.result with
    | none => simp [exceptOutsOf]
    | some r =>
      cases r <;> dsimp only <;> (try split) <;> (try split) <;>
        simp [exceptOutsOf, modify_reputation,
          BENEFIT_VALID_MESSAGE_FIRST, COST_ASSIGNMENT_TOO_FAR_IN_THE_FUTURE,
          COST_INVALID_MESSAGE]

theorem assignment_peer_fold_sublist (topology : Option GridNeighbors)
    (rr : RequiredRouting) (source : Option PeerId) (n : Nat)
    (kb : List (PeerId × PeerKnowledge)) (random : RandomRouting) (rng : Rng) :
    (assignment_peer_fold topology rr source n kb random rng).1.Sublist (mkeys kb) := by
  induction kb generalizing random rng with
  | nil => simp [assignment_peer_fold, mkeys]
  | cons x rest ih =>
    obtain ⟨peer, pk⟩ := x
    have hk : mkeys ((peer, pk) :: rest) = peer :: mkeys rest := rfl
    rw [hk]
    unfold assignment_peer_fold
    split
    · exact (ih _ _).trans (List.sublist_cons_self peer (mkeys rest))
    · split
      · exact List.Sublist.cons₂ peer (ih _ _)
      · split
        split
        · exact List.Sublist.cons₂ peer (ih _ _)
        · exact (ih _ _).trans (List.sublist_cons_self peer (mkeys rest))

theorem mark_sent_guard (subj : MessageSubject) (kind : MessageKind)
    (kb : List (PeerId × PeerKnowledge)) (peersSel : List PeerId)
    (hsub : peersSel.Sublist (mkeys kb)) (hnodup : (mkeys kb).Nodup) :
    (mark_sent_fold subj kind peersSel kb).2.Nodup ∧
    ∀ p ∈ (mark_sent_fold subj kind peersSel kb).2,
      ∃ pk, mfind kb p = some pk ∧ pk.contains subj kind = false ∧
        mfind (mark_sent_fold subj kind peersSel kb).1 p =
          some { pk with sent := (pk.sent.insert subj kind).1 } := by
  have hpnd : peersSel.Nodup := hsub.nodup hnodup
  exact ⟨(mark_sent_fold_sel_sublist subj kind peersSel kb).nodup hpnd,
    fun p hp => mark_sent_fold_mem subj kind peersSel kb hpnd p hp⟩

/-- C3 (amended): each circulation pass of a freshly imported assignment
is deduplicated against per-peer knowledge — the emitted peer list has
no duplicates, names only peers whose recorded `PeerKnowledge` (sent or
received) lacked `(subject, Assignment)`, and each named peer's ledger
records `(subject, Assignment)` as sent from that moment.  (The
whole-execution at-most-once bound fails when the per-peer knowledge
entry is dropped, as the counterexample shows.) -/
theorem circulation_is_knowledge_guarded (s s1 : State)
    (result : PendingAssignmentCheckResult) (entry entry1 : BlockEntry)
    (outs1 : List Output) (rng : Rng) (peers : List PeerId)
    (asgs : List (IndirectAssignmentCert × CandidateIndex))
    (hentry : mfind s.blocks result.assignment.block_hash = some entry)
    (hok : assignment_result_bookkeeping s entry result result.assignment.block_hash
      ⟨result.assignment.block_hash, result.claimed_candidate_index,
        result.assignment.validator⟩ = .ok (s1, entry1, outs1))
    (hout1 : ∀ o ∈ outs1, ∃ q rr, o = Output.ReportPeer q rr)
    (hnodup : (mkeys entry1.known_by).Nodup)
    (hmem : Output.SendAssignments peers asgs ∈
      (s.finish_assignment_import_and_circulate result rng).2.1) :
    peers.Nodup ∧
      ∀ p ∈ peers, ∃ pk,
        mfind entry1.known_by p = some pk ∧
        pk.contains ⟨result.assignment.block_hash, result.claimed_candidate_index,
          result.assignment.validator⟩ MessageKind.Assignment = false ∧
        ∃ entryF pkF,
          mfind (s.finish_assignment_import_and_circulate result rng).1.blocks
            result.assignment.block_hash = some entryF ∧
          mfind entryF.known_by p = some pkF ∧
          pkF.contains ⟨result.assignment.block_hash, result.claimed_candidate_index,
            result.assignment.validator⟩ MessageKind.Assignment = true := by
  unfold State.finish_assignment_import_and_circulate at hmem ⊢
  dsimp only at hmem ⊢
  rw [hentry] at hmem ⊢
  dsimp only at hmem ⊢
  rw [hok] at hmem ⊢
  dsimp only at hmem ⊢
  revert hmem
  split
  · intro hmem
    obtain ⟨q, rr, h⟩ := hout1 _ hmem
    cases h
  · split <;> split <;> split <;>
      (intro hmem
       rcases List.mem_append.mp hmem with h | h
       · obtain ⟨q, rr, hh⟩ := hout1 _ h
         cases hh
       · first
         | (simp only [List.mem_singleton] at h
            injection h with h1 h2
            subst h1
            refine ⟨(mark_sent_guard _ MessageKind.Assignment entry1.known_by _
              (assignment_peer_fold_sublist _ _ _ _ _ _ _) hnodup).1, fun p hp => ?_⟩
            obtain ⟨pk, h1, h2, h3⟩ := (mark_sent_guard _ MessageKind.Assignment
              entry1.known_by _ (assignment_peer_fold_sublist _ _ _ _ _ _ _)
              hnodup).2 p hp
            exact ⟨pk, h1, h2, _, _, mfind_mput_self _ _ _, h3,
              PeerKnowledge.contains_sent_insert_self pk _ MessageKind.Assignment⟩)
         | cases h)

/-- A concrete scenario for the C3 witness: one block known by one
fresh peer, a local assignment circulated with one coin of randomness. -/
def c3w_entry : BlockEntry :=
  ⟨[(1, PeerKnowledge.empty)], 1, 0, Knowledge.empty, [CandidateEntry.empty], 0⟩

def c3w_state : State := { State.initial with blocks := [(170, c3w_entry)] }

def c3w_result : PendingAssignmentCheckResult := ⟨⟨170, 0, 7⟩, none, ⟨170, 7, 5⟩, 0, none⟩

/-- Witness for the C3 amended theorem at the concrete scenario. -/
theorem circulation_is_knowledge_guarded_witness :
    ([1] : List PeerId).Nodup ∧
      ∀ p ∈ ([1] : List PeerId), ∃ pk,
        mfind c3w_entry.known_by p = some pk ∧
        pk.contains ⟨170, 0, 7⟩ MessageKind.Assignment = false ∧
        ∃ entryF pkF,
          mfind (c3w_state.finish_assignment_import_and_circulate c3w_result
              [true]).1.blocks 170 = some entryF ∧
          mfind entryF.known_by p = some pkF ∧
          pkF.contains ⟨170, 0, 7⟩ MessageKind.Assignment = true :=
  circulation_is_knowledge_guarded c3w_state c3w_state c3w_result c3w_entry c3w_entry []
    [true] [1] [(⟨170, 7, 5⟩, 0)] rfl rfl (by simp) (by decide) (by decide)

/-! ### C4 counterexample — approval transmitted before the assignment -/

/-- The grid topology used in the C4 scenario: validator messages route
along the X dimension, whose only member is peer 2. -/
def cexC4_topo : GridNeighbors :=
  ⟨fun p => decide (p = 2), fun _ => false, fun _ _ => RequiredRouting.GridX⟩

def cexC4_vote : IndirectSignedApprovalVote := ⟨170, 0, 7, 99⟩

/-- Peer 2 originates the assignment (so it is never sent the assignment
back), peer 3 originates the approval; the approval is then routed to
peer 2 because it lies in the grid topology.  After peer 2 reconnects,
unification sends it the assignment — after the approval was already
transmitted on that edge. -/
def cexC4_events : List Event :=
  [ .newGossipTopology 0 cexC4_topo (some 0),
    .peerConnected 2, .peerConnected 3,
    .newBlocks [⟨170, 1, 0, 1, 0⟩],
    .peerViewChange 2 ⟨[170], 0⟩,
    .peerViewChange 3 ⟨[170], 0⟩,
    .peerMessageAssignments 2 [(⟨170, 7, 5⟩, 0)],
    .assignmentCheckCompleted (some .Accepted),
    .peerMessageApprovals 3 [cexC4_vote],
    .approvalCheckCompleted (some .Accepted),
    .peerDisconnected 2,
    .peerConnected 2,
    .peerViewChange 2 ⟨[170], 0⟩ ]

/-- C4 counterexample: on the edge to peer 2 the approval of subject
`(170, 0, 7)` is transmitted strictly before the assignment of the same
subject, refuting the claim that an approval is never transmitted before
the assignment on the same edge. -/
theorem approval_before_assignment_cex :
    ((runEvents State.initial cexC4_events []).2.1.findIdx
        (isApprovalSendTo 2 ⟨170, 0, 7⟩)) <
      ((runEvents State.initial cexC4_events []).2.1.findIdx
        (isAssignmentSendTo 2 ⟨170, 0, 7⟩)) ∧
    ((runEvents State.initial cexC4_events []).2.1.any
        (isApprovalSendTo 2 ⟨170, 0, 7⟩)) = true ∧
    ((runEvents State.initial cexC4_events []).2.1.any
        (isAssignmentSendTo 2 ⟨170, 0, 7⟩)) = true := by
  refine ⟨by decide, by decide, by decide⟩

/-! ### C7 counterexample — finalize then new-blocks is not a no-op -/

def cexC7_meta : BlockApprovalMeta := ⟨170, 1, 0, 0, 0⟩

def cexC7_lead : List Event := [ .newBlocks [cexC7_meta], .blockFinalized 1 ]

/-- C7 counterexample: after `BlockFinalized(1)` pruned block 170
(number 1), a `NewBlocks` carrying the same block — whose number 1 is at
most the finalised 1 — re-creates its entry, so the sequence changes the
state and is not a no-op. -/
theorem finalize_then_new_blocks_not_noop_cex :
    (mfind (runEvents State.initial cexC7_lead []).1.blocks 170).isSome = false ∧
    (mfind (runEvents State.initial
        (cexC7_lead ++ [.newBlocks [cexC7_meta]]) []).1.blocks 170).isSome = true := by
  refine ⟨by decide, by decide⟩

/-! ### C8 counterexample — L1 aggression skips `PendingTopology` -/

/-- A local assignment imported before any topology is known has
`required_routing = PendingTopology`; a second block 1000 numbers later
raises the span to the L1 threshold. -/
def cexC8_events : List Event :=
  [ .newBlocks [⟨170, 1, 0, 1, 0⟩],
    .distributeAssignment ⟨170, 7, 5⟩ 0,
    .newBlocks [⟨171, 1001, 170, 0, 0⟩] ]

def cexC8_state : State := (runEvents State.initial cexC8_events []).1

/-- C8 counterexample: the span over the store is 1000, which reaches the
default `l1_threshold`, and block 170 (the oldest) holds a local message
with `required_routing = PendingTopology ≠ All`; the claim says it is set
to `All`, but the aggression modifier skips `PendingTopology` messages,
so it remains `PendingTopology`. -/
theorem aggression_l1_pending_topology_cex :
    cexC8_state.aggression_config.l1_threshold = some 1000 ∧
    (cexC8_state.blocks_by_number.head?.map Prod.fst) = some 1 ∧
    (cexC8_state.blocks_by_number.getLast?.map Prod.fst) = some 1001 ∧
    (match mfind cexC8_state.blocks 170 with
      | some e =>
        match e.candidates.get? 0 with
        | some ce => mfind ce.messages 7
        | none => none
      | none => none) =
      some ⟨RequiredRouting.PendingTopology, true, ⟨0⟩, .Assigned 5⟩ := by
  refine ⟨by decide, by decide, by decide, by decide⟩

/-! ### C4 amended — assignments precede approvals within unification -/

/-- The approvals batch is covered by the assignments batch: the
approval's subject has a matching assignment entry in the batch. -/
def AsgCovers (asg : List (IndirectAssignmentCert × CandidateIndex))
    (v : IndirectSignedApprovalVote) : Prop :=
  ∃ cert, ((⟨v.block_hash, v.validator, cert⟩ : IndirectAssignmentCert),
    v.candidate_index) ∈ asg

/-- Invariant carried through the per-block walk of `unify_with_peer`:
batched approvals are covered by batched assignments, and every subject
of the current block marked in the fresh per-block peer ledger already
has its assignment batched. -/
def UnifyInv (block : Hash) (acc : UnifyAcc) : Prop :=
  (∀ v ∈ acc.app, AsgCovers acc.asg v) ∧
  (∀ ci vi, acc.pk.contains ⟨block, ci, vi⟩ MessageKind.Assignment = true →
    ∃ cert, ((⟨block, vi, cert⟩ : IndirectAssignmentCert), ci) ∈ acc.asg)

theorem PeerKnowledge.contains_mk_insert_other (k r : Knowledge) (s s' : MessageSubject)
    (kind kind' : MessageKind) (hne : s' ≠ s) :
    (PeerKnowledge.mk (k.insert s kind).1 r).contains s' kind' =
      (PeerKnowledge.mk k r).contains s' kind' := by
  unfold PeerKnowledge.contains
  simp [Knowledge.contains_insert_other _ _ _ _ _ hne]

theorem unify_process_message_inv (topology : Option GridNeighbors) (total_peers : Nat)
    (block : Hash) (ci : Nat) (v : ValidatorIndex) (peer : PeerId) (ms : MessageState)
    (acc : UnifyAcc) (hinv : UnifyInv block acc) :
    UnifyInv block (unify_process_message topology total_peers block ci v peer ms acc).2 ∧
    ∀ x ∈ acc.asg,
      x ∈ (unify_process_message topology total_peers block ci v peer ms acc).2.asg := by
  obtain ⟨happ, hpk⟩ := hinv
  unfold unify_process_message
  dsimp only
  split
  · exact ⟨⟨happ, hpk⟩, fun x hx => hx⟩
  · cases hsig : ms.approval_state.approval_signature with
    | none =>
      dsimp only [Option.map]
      split
      · -- assignment batched, no approval signature
        refine ⟨⟨fun v' hv' => ?_, fun ci' vi' h' => ?_⟩,
          fun x hx => List.mem_append_left _ hx⟩
        · obtain ⟨cert, hc⟩ := happ v' hv'
          exact ⟨cert, List.mem_append_left _ hc⟩
        · by_cases hs : (⟨block, ci', vi'⟩ : MessageSubject) = ⟨block, ci, v⟩
          · simp only [MessageSubject.mk.injEq] at hs
            obtain ⟨-, h1, h2⟩ := hs
            subst h1; subst h2
            exact ⟨ms.approval_state.assignment_cert,
              List.mem_append_right _ (List.mem_singleton.mpr rfl)⟩
          · rw [PeerKnowledge.contains_mk_insert_other _ _ _ _ _ _ hs] at h'
            obtain ⟨cert, hc⟩ := hpk ci' vi' h'
            exact ⟨cert, List.mem_append_left _ hc⟩
      · exact ⟨⟨happ, hpk⟩, fun x hx => hx⟩
    | some sg =>
      dsimp only [Option.map]
      split
      · -- assignment batched
        rename_i hadd
        split
        · -- approval batched too
          refine ⟨⟨fun v' hv' => ?_, fun ci' vi' h' => ?_⟩,
            fun x hx => List.mem_append_left _ hx⟩
          · rcases List.mem_append.mp hv' with hv | hv
            · obtain ⟨cert, hc⟩ := happ v' hv
              exact ⟨cert, List.mem_append_left _ hc⟩
            · rw [List.mem_singleton] at hv
              subst hv
              exact ⟨ms.approval_state.assignment_cert,
                List.mem_append_right _ (List.mem_singleton.mpr rfl)⟩
          · by_cases hs : (⟨block, ci', vi'⟩ : MessageSubject) = ⟨block, ci, v⟩
            · simp only [MessageSubject.mk.injEq] at hs
              obtain ⟨-, h1, h2⟩ := hs
              subst h1; subst h2
              exact ⟨ms.approval_state.assignment_cert,
                List.mem_append_right _ (List.mem_singleton.mpr rfl)⟩
            · rw [PeerKnowledge.contains_mk_insert_other _ _ _ _ _ _ hs,
                PeerKnowledge.contains_mk_insert_other _ _ _ _ _ _ hs] at h'
              obtain ⟨cert, hc⟩ := hpk ci' vi' h'
              exact ⟨cert, List.mem_append_left _ hc⟩
        · -- approval already known to this peer
          refine ⟨⟨fun v' hv' => ?_, fun ci' vi' h' => ?_⟩,
            fun x hx => List.mem_append_left _ hx⟩
          · obtain ⟨cert, hc⟩ := happ v' hv'
            exact ⟨cert, List.mem_append_left _ hc⟩
          · by_cases hs : (⟨block, ci', vi'⟩ : MessageSubject) = ⟨block, ci, v⟩
            · simp only [MessageSubject.mk.injEq] at hs
              obtain ⟨-, h1, h2⟩ := hs
              subst h1; subst h2
              exact ⟨ms.approval_state.assignment_cert,
                List.mem_append_right _ (List.mem_singleton.mpr rfl)⟩
            · rw [PeerKnowledge.contains_mk_insert_other _ _ _ _ _ _ hs] at h'
              obtain ⟨cert, hc⟩ := hpk ci' vi' h'
              exact ⟨cert, List.mem_append_left _ hc⟩
      · -- assignment already known to this peer
        rename_i hknown
        have hc : acc.pk.contains ⟨block, ci, v⟩ MessageKind.Assignment = true := by
          cases hcc : acc.pk.contains ⟨block, ci, v⟩ MessageKind.Assignment
          · exact absurd (by rw [hcc]; rfl) hknown
          · rfl
        split
        · -- approval batched
          refine ⟨⟨fun v' hv' => ?_, fun ci' vi' h' => ?_⟩, fun x hx => hx⟩
          · rcases List.mem_append.mp hv' with hv | hv
            · exact happ v' hv
            · rw [List.mem_singleton] at hv
              subst hv
              exact hpk ci v hc
          · by_cases hs : (⟨block, ci', vi'⟩ : MessageSubject) = ⟨block, ci, v⟩
            · simp only [MessageSubject.mk.injEq] at hs
              obtain ⟨-, h1, h2⟩ := hs
              subst h1; subst h2
              exact hpk _ _ hc
            · rw [PeerKnowledge.contains_mk_insert_other _ _ _ _ _ _ hs] at h'
              exact hpk ci' vi' h'
        · exact ⟨⟨happ, hpk⟩, fun x hx => hx⟩

theorem unify_process_candidate_inv (topology : Option GridNeighbors) (total_peers : Nat)
    (block : Hash) (ci : Nat) (peer : PeerId)
    (msgs : List (ValidatorIndex × MessageState)) (acc : UnifyAcc)
    (hinv : UnifyInv block acc) :
    UnifyInv block (unify_process_candidate topology total_peers block ci peer msgs acc).2 ∧
    ∀ x ∈ acc.asg,
      x ∈ (unify_process_candidate topology total_peers block ci peer msgs acc).2.asg := by
  induction msgs generalizing acc with
  | nil => exact ⟨hinv, fun x hx => hx⟩
  | cons vm rest ih =>
    obtain ⟨v, ms⟩ := vm
    unfold unify_process_candidate
    dsimp only
    obtain ⟨h1, h2⟩ := unify_process_message_inv topology total_peers block ci v peer ms acc hinv
    obtain ⟨h3, h4⟩ := ih _ h1
    exact ⟨h3, fun x hx => h4 x (h2 x hx)⟩

theorem unify_process_candidates_inv (topology : Option GridNeighbors) (total_peers : Nat)
    (block : Hash) (peer : PeerId) (ces : List CandidateEntry) (idx : Nat) (acc : UnifyAcc)
    (hinv : UnifyInv block acc) :
    UnifyInv block (unify_process_candidates topology total_peers block peer ces idx acc).2 ∧
    ∀ x ∈ acc.asg,
      x ∈ (unify_process_candidates topology total_peers block peer ces idx acc).2.asg := by
  induction ces generalizing idx acc with
  | nil => exact ⟨hinv, fun x hx => hx⟩
  | cons ce rest ih =>
    unfold unify_process_candidates
    dsimp only
    obtain ⟨h1, h2⟩ :=
      unify_process_candidate_inv topology total_peers block idx peer ce.messages acc hinv
    obtain ⟨h3, h4⟩ := ih (idx + 1) _ h1
    exact ⟨h3, fun x hx => h4 x (h2 x hx)⟩

theorem unify_chain_inv (topologies : SessionGridTopologies) (total_peers : Nat)
    (peer : PeerId) (vfn : BlockNumber) (fuel : Nat) (block : Hash) (st : UnifyState)
    (hinv : ∀ v ∈ st.app, AsgCovers st.asg v) :
    ∀ v ∈ (unify_chain topologies total_peers peer vfn fuel block st).app,
      AsgCovers (unify_chain topologies total_peers peer vfn fuel block st).asg v := by
  induction fuel generalizing block st with
  | zero => exact hinv
  | succ fuel ih =>
    unfold unify_chain
    cases hf : mfind st.entries block with
    | none => exact hinv
    | some entry =>
      dsimp only
      split
      · exact hinv
      · split
        · exact hinv
        · apply ih
          have h0 : UnifyInv block ⟨PeerKnowledge.empty, st.asg, st.app, st.rng⟩ := by
            refine ⟨hinv, fun ci vi h => ?_⟩
            simp [PeerKnowledge.contains, PeerKnowledge.empty, Knowledge.contains,
              Knowledge.empty, mfind] at h
          exact (unify_process_candidates_inv (topologies.get_topology entry.session)
            total_peers block peer entry.candidates 0
            ⟨PeerKnowledge.empty, st.asg, st.app, st.rng⟩ h0).1.1

theorem unify_heads_inv (topologies : SessionGridTopologies) (total_peers : Nat)
    (peer : PeerId) (vfn : BlockNumber) (fuel : Nat) (heads : List Hash) (st : UnifyState)
    (hinv : ∀ v ∈ st.app, AsgCovers st.asg v) :
    ∀ v ∈ (unify_heads topologies total_peers peer vfn fuel heads st).app,
      AsgCovers (unify_heads topologies total_peers peer vfn fuel heads st).asg v := by
  induction heads generalizing st with
  | nil => exact hinv
  | cons h rest ih =>
    unfold unify_heads
    exact ih _ (unify_chain_inv topologies total_peers peer vfn fuel h st hinv)

/-- C4 (amended): within one peer-view unification, the assignments
batch is flushed to the bridge before the approvals batch, and every
approval in the approvals batch has its subject's assignment in the
assignments batch, so on that call the assignment precedes the approval
on the edge.  (Across separate calls the per-edge ordering fails, as the
counterexample shows.) -/
theorem unify_assignments_precede_approvals (entries : List (Hash × BlockEntry))
    (topologies : SessionGridTopologies) (total_peers : Nat) (peer_id : PeerId)
    (view : View) (rng : Rng) :
    ∃ asgs apps,
      (unify_with_peer entries topologies total_peers peer_id view rng).2.1 =
        (if asgs.isEmpty then [] else [Output.SendAssignments [peer_id] asgs]) ++
        (if apps.isEmpty then [] else [Output.SendApprovals [peer_id] apps]) ∧
      ∀ v ∈ apps, AsgCovers asgs v := by
  refine ⟨(unify_heads topologies total_peers peer_id view.finalized_number
      (entries.length + 1) view.heads ⟨entries, [], [], rng⟩).asg,
    (unify_heads topologies total_peers peer_id view.finalized_number
      (entries.length + 1) view.heads ⟨entries, [], [], rng⟩).app, rfl, ?_⟩
  exact unify_heads_inv topologies total_peers peer_id view.finalized_number
    (entries.length + 1) view.heads ⟨entries, [], [], rng⟩ (fun v hv => absurd hv
      (List.not_mem_nil v))

/-! ### C7 amended — `NewBlocks` of already-present hashes is a no-op -/

theorem foldl_fixed {α β : Type} (f : α → β → α) (a : α) (l : List β)
    (h : ∀ b ∈ l, f a b = a) : l.foldl f a = a := by
  induction l with
  | nil => rfl
  | cons x rest ih =>
    rw [List.foldl_cons, h x (List.mem_cons_self x rest)]
    exact ih (fun b hb => h b (List.mem_cons_of_mem x hb))

theorem unify_with_peer_no_heads (blocks : List (Hash × BlockEntry))
    (topologies : SessionGridTopologies) (total_peers : Nat) (peer_id : PeerId)
    (fn : BlockNumber) (rng : Rng) :
    unify_with_peer blocks topologies total_peers peer_id ⟨[], fn⟩ rng =
      (blocks, [], rng) := rfl

theorem new_blocks_unify_empty (topologies : SessionGridTopologies) (total_peers : Nat)
    (peers : List (PeerId × View)) (blocks : List (Hash × BlockEntry)) (rng : Rng) :
    new_blocks_unify topologies total_peers [] peers blocks rng = (blocks, [], rng) := by
  induction peers generalizing blocks rng with
  | nil => rfl
  | cons pv rest ih =>
    obtain ⟨peer_id, view⟩ := pv
    unfold new_blocks_unify
    dsimp only
    have hfilter : (View.mk (view.heads.filter (fun h => ([] : List Hash).contains h))
        view.finalized_number) = View.mk [] view.finalized_number := by
      simp
    rw [hfilter, unify_with_peer_no_heads]
    dsimp only
    rw [ih]
    rfl

theorem enable_aggression_noop (s : State) (resend : Resend)
    (hspan : s.aggression_config.is_age_relevant
      (((s.blocks_by_number.getLast?.map Prod.fst).getD 0) -
        ((s.blocks_by_number.head?.map Prod.fst).getD 0)) = false) :
    s.enable_aggression resend = (s, []) := by
  unfold State.enable_aggression
  dsimp only
  cases hh : s.blocks_by_number.head?.map Prod.fst with
  | none => rfl
  | some minA =>
    cases hl : s.blocks_by_number.getLast?.map Prod.fst with
    | none => rfl
    | some maxA =>
      rw [hh, hl] at hspan
      dsimp only [Option.getD] at hspan
      simp [hspan]

/-- C7 (amended): `handle_new_blocks` performs no finality check — it
re-creates any meta whose hash is vacant in the store, so
finalize-then-`NewBlocks` is not a no-op in general (the counterexample);
in the complementary case, when every announced hash is still present,
the pending-known backlog is empty and the unfinalized span is below the
aggression threshold, `NewBlocks` leaves the state unchanged and emits
nothing. -/
theorem new_blocks_present_hashes_noop (s : State) (metas : List BlockApprovalMeta)
    (rng : Rng)
    (hpresent : ∀ meta ∈ metas, (mfind s.blocks meta.hash).isSome = true)
    (hpending : s.pending_known = [])
    (hspan : s.aggression_config.is_age_relevant
      (((s.blocks_by_number.getLast?.map Prod.fst).getD 0) -
        ((s.blocks_by_number.head?.map Prod.fst).getD 0)) = false) :
    s.handle_new_blocks metas rng = (s, [], rng) := by
  obtain ⟨bbn, blocks, pending, views, topos, recent, agg, pipe⟩ := s
  dsimp only at hpresent hpending hspan
  subst hpending
  unfold State.handle_new_blocks
  dsimp only
  have hstep : ∀ meta ∈ metas,
      (fun (acc : State × List Hash) meta =>
        match mfind acc.1.blocks meta.hash with
        | some _ => acc
        | none =>
          ({ acc.1 with
              blocks := mput acc.1.blocks meta.hash
                ⟨[], meta.number, meta.parent_hash, Knowledge.empty,
                  List.replicate meta.candidates_count CandidateEntry.empty, meta.session⟩,
              topologies := acc.1.topologies.inc_session_refs meta.session,
              blocks_by_number := bbnPush acc.1.blocks_by_number meta.number meta.hash },
            acc.2 ++ [meta.hash]))
        (⟨⟨bbn, blocks, [], views, topos, recent, agg, pipe⟩, []⟩ : State × List Hash) meta =
        (⟨⟨bbn, blocks, [], views, topos, recent, agg, pipe⟩, []⟩ : State × List Hash) := by
    intro meta hm
    obtain ⟨e, he⟩ := Option.isSome_iff_exists.mp (hpresent meta hm)
    dsimp only
    rw [he]
  rw [foldl_fixed _ _ _ hstep]
  dsimp only
  rw [new_blocks_unify_empty]
  dsimp only
  simp only [List.filter_nil, List.map_nil, List.flatten_nil]
  simp only [import_pending]
  rw [enable_aggression_noop _ Resend.Yes hspan]
  rfl

/-- A concrete scenario for the C7 witness: one stored block whose meta
is re-announced. -/
def c7w_entry : BlockEntry := ⟨[], 1, 0, Knowledge.empty, [CandidateEntry.empty], 0⟩

def c7w_state : State :=
  { State.initial with blocks := [(170, c7w_entry)], blocks_by_number := [(1, [170])] }

/-- Witness for the C7 amended theorem at the concrete scenario. -/
theorem new_blocks_present_hashes_noop_witness :
    c7w_state.handle_new_blocks [⟨170, 1, 0, 1, 0⟩] [] = (c7w_state, [], []) :=
  new_blocks_present_hashes_noop c7w_state [⟨170, 1, 0, 1, 0⟩] [] (by decide) rfl (by decide)

/-! ### C8 amended — aggression L1 escalation and propagation -/

theorem mfind_append_none {α β : Type} [DecidableEq α] (m1 m2 : List (α × β)) (k : α)
    (h : mfind m1 k = none) : mfind (m1 ++ m2) k = mfind m2 k := by
  induction m1 with
  | nil => rfl
  | cons kv rest ih =>
    obtain ⟨k0, v0⟩ := kv
    by_cases hk : k0 = k
    · simp [mfind, hk] at h
    · simp only [mfind, hk, if_false, List.cons_append] at h ⊢
      exact ih h

theorem mput_fresh_append {α β : Type} [DecidableEq α] (m : List (α × β)) (k : α) (v : β)
    (h : mfind m k = none) : mput m k v = m ++ [(k, v)] := by
  induction m with
  | nil => rfl
  | cons kv rest ih =>
    obtain ⟨k0, v0⟩ := kv
    by_cases hk : k0 = k
    · simp [mfind, hk] at h
    · simp only [mfind, hk, if_false] at h
      simp only [mput, hk, if_false, List.cons_append]
      rw [ih h]

theorem adjust_blocks_skip (topologies : SessionGridTopologies)
    (bf : BlockEntry → BlockEntry × Bool)
    (rm : RequiredRouting → Bool → ValidatorIndex → RequiredRouting)
    (bl : List (Hash × BlockEntry)) (pa : PeerAsgs) (pp : PeerApps)
    (hbf : ∀ b, bf b = (b, false)) :
    adjust_blocks topologies bf rm bl pa pp = (bl, pa, pp) := by
  induction bl with
  | nil => rfl
  | cons hb rest ih =>
    obtain ⟨hh, b⟩ := hb
    simp [adjust_blocks, hbf b, ih]

theorem adjust_skip_all (blocks : List (Hash × BlockEntry))
    (topologies : SessionGridTopologies) (bf : BlockEntry → BlockEntry × Bool)
    (rm : RequiredRouting → Bool → ValidatorIndex → RequiredRouting)
    (hbf : ∀ b, bf b = (b, false)) :
    adjust_required_routing_and_propagate blocks topologies bf rm = (blocks, []) := by
  unfold adjust_required_routing_and_propagate
  rw [adjust_blocks_skip _ _ _ _ _ _ hbf]
  rfl

/-- The packet map built by the peer loop for an `All`-routed assignment
with no approval: starting from fresh keys, it is exactly one singleton
packet per aware peer whose knowledge lacks the subject. -/
theorem adjust_peers_all_no_approval (t : GridNeighbors) (subj : MessageSubject)
    (am : IndirectAssignmentCert × CandidateIndex) (kb : List (PeerId × PeerKnowledge))
    (pa : PeerAsgs) (pp : PeerApps) (hnd : (mkeys kb).Nodup)
    (hfresh : ∀ q ∈ mkeys kb, mfind pa q = none) :
    (adjust_peers t .All subj am none kb pa pp).2.1 =
      pa ++ kb.filterMap (fun x =>
        if x.2.contains subj MessageKind.Assignment = false then some (x.1, [am])
        else none) ∧
    (adjust_peers t .All subj am none kb pa pp).2.2 = pp := by
  induction kb generalizing pa with
  | nil => exact ⟨by simp [adjust_peers], rfl⟩
  | cons x rest ih =>
    obtain ⟨peer, pk⟩ := x
    have hndr : (mkeys rest).Nodup := (List.nodup_cons.mp hnd).2
    have hpr : peer ∉ mkeys rest := (List.nodup_cons.mp hnd).1
    unfold adjust_peers
    dsimp only
    split
    · rename_i hroute
      simp [GridNeighbors.route_to_peer] at hroute
    · by_cases hc : pk.contains subj MessageKind.Assignment = false
      · rw [if_pos (by simp [hc])]
        dsimp only
        have hfp : mfind pa peer = none := hfresh peer (List.mem_cons_self _ _)
        have hpush : mapPush pa peer am = pa ++ [(peer, [am])] := by
          unfold mapPush
          rw [hfp]
          exact mput_fresh_append _ _ _ hfp
        rw [hpush]
        have hfresh' : ∀ q ∈ mkeys rest, mfind (pa ++ [(peer, [am])]) q = none := by
          intro q hq
          rw [mfind_append_none _ _ _ (hfresh q (List.mem_cons_of_mem _ hq))]
          simp only [mfind]
          rw [if_neg]
          intro hqp
          exact hpr (show peer ∈ mkeys rest from hqp ▸ hq)
        obtain ⟨h1, h2⟩ := ih _ hndr hfresh'
        refine ⟨?_, h2⟩
        rw [h1]
        simp [hc, List.filterMap_cons]
      · have hcT : pk.contains subj MessageKind.Assignment = true := by
          cases h2 : pk.contains subj MessageKind.Assignment
          · exact absurd h2 hc
          · rfl
        rw [if_neg (by simp [hcT])]
        dsimp only
        obtain ⟨h1, h2⟩ := ih _ hndr (fun q hq => hfresh q (List.mem_cons_of_mem _ hq))
        refine ⟨?_, h2⟩
        rw [h1]
        simp [hcT, List.filterMap_cons]

/-- C8 (amended): when the unfinalized span reaches `l1_threshold`, a
message on the oldest block with `local = true` and `required_routing`
neither `All` nor `PendingTopology` gets its routing set to `All` (the
aggression modifier returns `PendingTopology` messages early, so they
are not escalated), and an assignment packet is emitted to exactly
those peers of the block's `known_by` whose recorded knowledge (sent or
received, not merely sent) lacks the subject. -/
theorem aggression_l1_escalates_local_routing (n1 n2 : BlockNumber) (bh bh2 : Hash)
    (vi : ValidatorIndex) (ms : MessageState) (cert : Cert)
    (kb : List (PeerId × PeerKnowledge)) (ph : Hash) (kn : Knowledge)
    (sess : SessionIndex) (entry2 : BlockEntry)
    (pend : List (Hash × List (PeerId × PendingMessage))) (views : List (PeerId × View))
    (topos : SessionGridTopologies) (recent : List Hash) (l1t : BlockNumber)
    (l2o reso : Option BlockNumber) (pipe : ImportPipeline) (t : GridNeighbors)
    (htopo : topos.get_topology sess = some t)
    (hdiff : l1t ≤ n2 - n1)
    (hn2 : entry2.number ≠ n1)
    (hlocal : ms.local_msg = true)
    (hrrA : ms.required_routing ≠ RequiredRouting.All)
    (hrrP : ms.required_routing ≠ RequiredRouting.PendingTopology)
    (hassigned : ms.approval_state = ApprovalState.Assigned cert)
    (hnd : (mkeys kb).Nodup) :
    let entry : BlockEntry := ⟨kb, n1, ph, kn, [⟨[(vi, ms)]⟩], sess⟩
    let s : State := ⟨[(n1, [bh]), (n2, [bh2])], [(bh, entry), (bh2, entry2)], pend,
      views, topos, recent, ⟨some l1t, l2o, reso⟩, pipe⟩
    let res := s.enable_aggression Resend.No
    (∃ entry', mfind res.1.blocks bh = some entry' ∧
      entry'.candidates =
        [⟨[(vi, { ms with required_routing := RequiredRouting.All })]⟩]) ∧
    (∀ p pk, (p, pk) ∈ kb →
      pk.contains ⟨bh, 0, vi⟩ MessageKind.Assignment = false →
      Output.SendAssignments [p] [(⟨bh, vi, cert⟩, 0)] ∈ res.2) ∧
    (∀ p pk, (p, pk) ∈ kb →
      pk.contains ⟨bh, 0, vi⟩ MessageKind.Assignment = true →
      ∀ pkt, Output.SendAssignments [p] pkt ∉ res.2) := by
  dsimp only
  unfold State.enable_aggression
  dsimp only
  have hmin : (([(n1, [bh]), (n2, [bh2])] :
      List (BlockNumber × List Hash)).head?.map Prod.fst) = some n1 := rfl
  have hmax : (([(n1, [bh]), (n2, [bh2])] :
      List (BlockNumber × List Hash)).getLast?.map Prod.fst) = some n2 := rfl
  rw [hmin, hmax]
  dsimp only
  have hrel : (⟨some l1t, l2o, reso⟩ : AggressionConfig).is_age_relevant (n2 - n1) = true := by
    simp [AggressionConfig.is_age_relevant]
    exact hdiff
  rw [hrel]
  simp only [Bool.not_true, Bool.false_eq_true, if_false]
  rw [adjust_skip_all _ _ _ (fun rr _ _ => rr) (fun b => by simp)]
  dsimp only
  unfold adjust_required_routing_and_propagate
  dsimp only
  simp only [adjust_blocks, adjust_candidates, adjust_messages, hn2, hrrP, hlocal, hrrA,
    hassigned, htopo, ApprovalState.approval_signature, ApprovalState.assignment_cert,
    AggressionConfig.is_age_relevant, Option.map_none', RequiredRouting.is_empty,
    decide_eq_true_eq, eq_self_iff_true, if_true, if_false, Bool.not_false, Bool.not_true,
    Bool.and_true, Bool.and_false, Bool.true_and, Bool.false_and, ge_iff_le, hdiff,
    decide_True, decide_False, ite_true, ite_false]
  simp only [Bool.false_eq_true, eq_self_iff_true, if_false, if_true,
    RequiredRouting.is_empty]
  obtain ⟨hpa, hpp⟩ := adjust_peers_all_no_approval t ⟨bh, 0, vi⟩ (⟨bh, vi, cert⟩, 0) kb
    [] [] hnd (fun q hq => rfl)
  rw [hpa, hpp]
  simp only [List.nil_append, List.map_nil, List.append_nil]
  refine ⟨⟨_, by rw [mfind]; rw [if_pos rfl], by rfl⟩, ?_, ?_⟩
  · intro p pk hmem hc
    refine List.mem_map.mpr ⟨(p, [(⟨bh, vi, cert⟩, 0)]), ?_, rfl⟩
    exact List.mem_filterMap.mpr ⟨(p, pk), hmem, by simp [hc]⟩
  · intro p pk hmem hcT pkt hout
    obtain ⟨x, hxmem, hxeq⟩ := List.mem_map.mp hout
    obtain ⟨y, hymem, hyeq⟩ := List.mem_filterMap.mp hxmem
    by_cases hy : y.2.contains ⟨bh, 0, vi⟩ MessageKind.Assignment = false
    · rw [if_pos hy] at hyeq
      injection hyeq with hyeq
      subst hyeq
      injection hxeq with hx1 hx2
      injection hx1 with hx1
      subst hx1
      have hfy : mfind kb y.1 = some y.2 := mfind_eq_some_of_mem kb y.1 y.2 hnd
        (by rcases y with ⟨y1, y2⟩; exact hymem)
      have hfp : mfind kb y.1 = some pk := mfind_eq_some_of_mem kb y.1 pk hnd hmem
      rw [hfy] at hfp
      injection hfp with hfp
      rw [hfp] at hy
      rw [hcT] at hy
      exact absurd hy (by simp)
    · rw [if_neg hy] at hyeq
      cases hyeq

/-- A concrete scenario for the C8 witness: a span of exactly 1000, a
local `GridX` assignment on the oldest block, one fresh peer and one
peer that already received the subject. -/
def c8w_topo : GridNeighbors :=
  ⟨fun _ => false, fun _ => false, fun _ _ => RequiredRouting.GridX⟩

def c8w_topos : SessionGridTopologies := ⟨[(0, ⟨1, some c8w_topo⟩)]⟩

def c8w_ms : MessageState := ⟨RequiredRouting.GridX, true, ⟨0⟩, .Assigned 5⟩

def c8w_kb : List (PeerId × PeerKnowledge) :=
  [(1, PeerKnowledge.empty), (2, ⟨Knowledge.empty, ⟨[(⟨170, 0, 7⟩, .Assignment)]⟩⟩)]

def c8w_entry2 : BlockEntry := ⟨[], 1001, 170, Knowledge.empty, [], 0⟩

def c8w_state : State :=
  ⟨[(1, [170]), (1001, [171])],
    [(170, ⟨c8w_kb, 1, 0, Knowledge.empty, [⟨[(7, c8w_ms)]⟩], 0⟩), (171, c8w_entry2)],
    [], [], c8w_topos, [], ⟨some 1000, some 10000, none⟩, ImportPipeline.empty⟩

/-- Witness for the C8 amended theorem at the concrete scenario. -/
theorem aggression_l1_escalates_local_routing_witness :
    (∃ entry', mfind (c8w_state.enable_aggression Resend.No).1.blocks 170 = some entry' ∧
      entry'.candidates =
        [⟨[(7, { c8w_ms with required_routing := RequiredRouting.All })]⟩]) ∧
    (∀ p pk, (p, pk) ∈ c8w_kb →
      pk.contains ⟨170, 0, 7⟩ MessageKind.Assignment = false →
      Output.SendAssignments [p] [(⟨170, 7, 5⟩, 0)] ∈
        (c8w_state.enable_aggression Resend.No).2) ∧
    (∀ p pk, (p, pk) ∈ c8w_kb →
      pk.contains ⟨170, 0, 7⟩ MessageKind.Assignment = true →
      ∀ pkt, Output.SendAssignments [p] pkt ∉ (c8w_state.enable_aggression Resend.No).2) :=
  aggression_l1_escalates_local_routing 1 1001 170 171 7 c8w_ms 5 c8w_kb 0 Knowledge.empty
    0 c8w_entry2 [] [] c8w_topos [] 1000 (some 10000) none ImportPipeline.empty c8w_topo
    rfl (by decide) (by decide) rfl (by decide) (by decide) rfl (by decide)

/-! ### C5 — per-subject serialisation of verification -/

theorem mfind_mdrop_self {α β : Type} [DecidableEq α] (m : List (α × β)) (k : α) :
    mfind (mdrop m k) k = none := by
  induction m with
  | nil => rfl
  | cons kv rest ih =>
    obtain ⟨k0, v0⟩ := kv
    by_cases hk : k0 = k
    · simpa [mdrop, hk] using ih
    · simpa [mdrop, mfind, hk] using ih

theorem mfind_mdrop_ne {α β : Type} [DecidableEq α] (m : List (α × β)) (k k' : α)
    (h : k' ≠ k) : mfind (mdrop m k) k' = mfind m k' := by
  induction m with
  | nil => rfl
  | cons kv rest ih =>
    obtain ⟨k0, v0⟩ := kv
    by_cases hk : k0 = k
    · subst hk
      have hkk : ¬ (k0 = k') := fun hc => h hc.symm
      simpa [mdrop, mfind, hkk] using ih
    · by_cases hk' : k0 = k'
      · simp [mdrop, mfind, hk, hk', h]
      · simpa [mdrop, mfind, hk, hk'] using ih

/-- The number of outstanding verification requests for one subject:
the in-flight checks of both ordered queues whose subject matches. -/
def checksFor (p : ImportPipeline) (subj : MessageSubject) : Nat :=
  (p.pending_assignment_checks.filter (fun c => c.message_subject = subj)).length +
  (p.pending_vote_checks.filter (fun c => c.message_subject = subj)).length

/-- The pipeline invariant: per subject at most one outstanding check,
and an outstanding check implies the subject is marked running. -/
def PipeInv (p : ImportPipeline) : Prop :=
  ∀ subj, checksFor p subj ≤ 1 ∧
    (checksFor p subj = 1 → p.is_queue_idle subj = false)

/-- Backlog well-formedness: every queued message sits under its own
subject's key. -/
def QueueWF (p : ImportPipeline) : Prop :=
  ∀ subj q, mfind p.pending_messages subj = some q → ∀ x ∈ q, x.2.subject = subj

def PipeOK (p : ImportPipeline) : Prop := PipeInv p ∧ QueueWF p

theorem checksFor_congr (p q : ImportPipeline)
    (h1 : q.pending_assignment_checks = p.pending_assignment_checks)
    (h2 : q.pending_vote_checks = p.pending_vote_checks) (subj : MessageSubject) :
    checksFor q subj = checksFor p subj := by
  unfold checksFor
  rw [h1, h2]

theorem PipeOK_congr (p q : ImportPipeline)
    (h1 : q.pending_assignment_checks = p.pending_assignment_checks)
    (h2 : q.pending_vote_checks = p.pending_vote_checks)
    (h3 : q.pending_work = p.pending_work)
    (h4 : q.pending_messages = p.pending_messages)
    (h : PipeOK p) : PipeOK q := by
  obtain ⟨hinv, hwf⟩ := h
  refine ⟨fun subj => ?_, fun subj qq hq x hx => hwf subj qq (by rwa [h4] at hq) x hx⟩
  obtain ⟨ha, hb⟩ := hinv subj
  refine ⟨by rw [checksFor_congr p q h1 h2]; exact ha, fun hc => ?_⟩
  rw [checksFor_congr p q h1 h2] at hc
  have := hb hc
  unfold ImportPipeline.is_queue_idle at this ⊢
  rw [h3]
  exact this

theorem pipeok_empty : PipeOK ImportPipeline.empty := by
  refine ⟨fun subj => ⟨by simp [checksFor, ImportPipeline.empty], by simp [checksFor, ImportPipeline.empty]⟩, ?_⟩
  intro subj q hq
  simp [ImportPipeline.empty, mfind] at hq

theorem pipeok_queue_message (p : ImportPipeline) (peer : PeerId) (msg : PendingMessage)
    (h : PipeOK p) : PipeOK (p.queue_message peer msg) := by
  obtain ⟨hinv, hwf⟩ := h
  refine ⟨fun subj => hinv subj, ?_⟩
  intro subj q hq x hx
  unfold ImportPipeline.queue_message at hq
  dsimp only at hq
  by_cases hs : msg.subject = subj
  · subst hs
    rw [mfind_mput_self] at hq
    injection hq with hq
    subst hq
    rcases List.mem_append.mp hx with hx | hx
    · cases hh : mfind p.pending_messages msg.subject with
      | none => rw [hh] at hx; simp at hx
      | some q0 =>
        rw [hh] at hx
        exact hwf msg.subject q0 hh x hx
    · rw [List.mem_singleton] at hx
      subst hx
      rfl
  · rw [mfind_mput_ne _ _ _ _ hs] at hq
    exact hwf subj q hq x hx

theorem checksFor_start_check_work_assignment (p : ImportPipeline) (subj : MessageSubject)
    (pending : PendingAssignmentCheck) (subj' : MessageSubject) :
    checksFor (p.start_check_work subj (.Assignment pending)) subj' =
      checksFor p subj' + (if pending.message_subject = subj' then 1 else 0) := by
  unfold ImportPipeline.start_check_work ImportPipeline.set_queue_idle checksFor
  dsimp only
  rw [List.filter_append]
  by_cases hc : pending.message_subject = subj'
  · simp [List.filter, hc]
    omega
  · simp [List.filter, hc]

theorem checksFor_start_check_work_approval (p : ImportPipeline) (subj : MessageSubject)
    (pending : PendingApprovalCheck) (subj' : MessageSubject) :
    checksFor (p.start_check_work subj (.Approval pending)) subj' =
      checksFor p subj' + (if pending.message_subject = subj' then 1 else 0) := by
  unfold ImportPipeline.start_check_work ImportPipeline.set_queue_idle checksFor
  dsimp only
  rw [List.filter_append]
  by_cases hc : pending.message_subject = subj'
  · simp [List.filter, hc]
    omega
  · simp [List.filter, hc]

theorem idle_start_check_work (p : ImportPipeline) (subj : MessageSubject)
    (w : PendingWork) (subj' : MessageSubject) :
    (p.start_check_work subj w).is_queue_idle subj' =
      if subj = subj' then false else p.is_queue_idle subj' := by
  cases w <;>
    (unfold ImportPipeline.start_check_work ImportPipeline.set_queue_idle
      ImportPipeline.is_queue_idle
     dsimp only
     by_cases hs : subj = subj'
     · subst hs
       rw [mfind_mput_self]
       simp
     · rw [mfind_mput_ne _ _ _ _ hs, if_neg hs])

theorem queuewf_start_check_work (p : ImportPipeline) (subj : MessageSubject)
    (w : PendingWork) (h : QueueWF p) : QueueWF (p.start_check_work subj w) := by
  intro subj' q hq x hx
  cases w <;> exact h subj' q hq x hx

theorem pipeok_start_check_work_assignment (p : ImportPipeline) (subj : MessageSubject)
    (pid : Option PeerId) (a : IndirectAssignmentCert) (ci : CandidateIndex)
    (h : PipeOK p) (hzero : checksFor p subj = 0) :
    PipeOK (p.start_check_work subj (.Assignment ⟨subj, pid, a, ci⟩)) := by
  obtain ⟨hinv, hwf⟩ := h
  refine ⟨fun subj' => ?_, queuewf_start_check_work p subj _ hwf⟩
  rw [checksFor_start_check_work_assignment]
  dsimp only
  rw [idle_start_check_work]
  by_cases hs : subj = subj'
  · subst hs
    rw [hzero, if_pos rfl, if_pos rfl]
    exact ⟨by omega, fun _ => rfl⟩
  · rw [if_neg hs, if_neg hs]
    obtain ⟨ha, hb⟩ := hinv subj'
    exact ⟨by omega, fun hc => hb (by omega)⟩

theorem pipeok_start_check_work_approval (p : ImportPipeline) (subj : MessageSubject)
    (pid : Option PeerId) (vote : IndirectSignedApprovalVote)
    (h : PipeOK p) (hzero : checksFor p subj = 0) :
    PipeOK (p.start_check_work subj (.Approval ⟨subj, pid, vote⟩)) := by
  obtain ⟨hinv, hwf⟩ := h
  refine ⟨fun subj' => ?_, queuewf_start_check_work p subj _ hwf⟩
  rw [checksFor_start_check_work_approval]
  dsimp only
  rw [idle_start_check_work]
  by_cases hs : subj = subj'
  · subst hs
    rw [hzero, if_pos rfl, if_pos rfl]
    exact ⟨by omega, fun _ => rfl⟩
  · rw [if_neg hs, if_neg hs]
    obtain ⟨ha, hb⟩ := hinv subj'
    exact ⟨by omega, fun hc => hb (by omega)⟩

theorem pop_next_message_pipe (p : ImportPipeline) (subj : MessageSubject)
    (h : PipeOK p) :
    PipeOK (p.pop_next_message subj).1 ∧
    (p.pop_next_message subj).1.pending_assignment_checks = p.pending_assignment_checks ∧
    (p.pop_next_message subj).1.pending_vote_checks = p.pending_vote_checks ∧
    (p.pop_next_message subj).1.pending_work = p.pending_work ∧
    (∀ pm, (p.pop_next_message subj).2 = some pm → pm.2.subject = subj) := by
  obtain ⟨hinv, hwf⟩ := h
  unfold ImportPipeline.pop_next_message
  dsimp only
  cases hq : mfind p.pending_messages subj with
  | none =>
    dsimp only
    refine ⟨⟨hinv, ?_⟩, rfl, rfl, rfl, fun pm hpm => by cases hpm⟩
    intro subj' q hq' x hx
    by_cases hs : subj' = subj
    · subst hs
      rw [mfind_mdrop_self] at hq'
      cases hq'
    · rw [mfind_mdrop_ne _ _ _ hs] at hq'
      exact hwf subj' q hq' x hx
  | some q0 =>
    dsimp only
    cases hh : q0.head? with
    | none =>
      dsimp only
      refine ⟨⟨hinv, ?_⟩, rfl, rfl, rfl, fun pm hpm => by cases hpm⟩
      intro subj' q hq' x hx
      by_cases hs : subj' = subj
      · subst hs
        rw [mfind_mdrop_self] at hq'
        cases hq'
      · rw [mfind_mdrop_ne _ _ _ hs] at hq'
        exact hwf subj' q hq' x hx
    | some pm =>
      dsimp only
      refine ⟨⟨hinv, ?_⟩, rfl, rfl, rfl, fun pm' hpm => ?_⟩
      · intro subj' q hq' x hx
        by_cases hs : subj' = subj
        · subst hs
          rw [mfind_mput_self] at hq'
          injection hq' with hq'
          subst hq'
          exact hwf _ q0 hq x (List.mem_of_mem_tail hx)
        · rw [mfind_mput_ne _ _ _ _ (fun hc => hs hc.symm)] at hq'
          exact hwf subj' q hq' x hx
      · injection hpm with hpm
        subst hpm
        exact hwf _ q0 hq _ (List.mem_of_mem_head? hh)

theorem peer_known_bookkeeping_frame (s : State) (entry : BlockEntry) (bh : Hash)
    (ms : MessageSubject) (mk : MessageKind) (pid : PeerId) :
    ∀ r, peer_known_bookkeeping s entry bh ms mk pid = .error r →
      r.1 = { s with blocks := r.1.blocks } := by
  intro r hr
  unfold peer_known_bookkeeping at hr
  revert hr
  cases mfind entry.known_by pid with
  | none => intro hr; cases hr
  | some pk =>
    dsimp only
    split
    · split <;> (intro hr; injection hr with hr; subst hr; rfl)
    · intro hr; cases hr

theorem start_assignment_pipe (s : State) (source : MessageSource)
    (a : IndirectAssignmentCert) (ci : CandidateIndex) (rng : Rng) (force : Bool)
    (hok : PipeOK s.import_pipeline)
    (hforce : force = true →
      checksFor s.import_pipeline ⟨a.block_hash, ci, a.validator⟩ = 0) :
    PipeOK (s.start_assignment_import source a ci rng force).1.import_pipeline := by
  unfold State.start_assignment_import
  dsimp only
  split
  · cases hp : source.peer_id with
    | some peer => exact pipeok_queue_message _ _ _ hok
    | none => exact hok
  · rename_i hcond
    cases hb : mfind s.blocks a.block_hash with
    | none =>
      cases hp : source.peer_id with
      | some peer_id =>
        dsimp only
        split
        · exact hok
        · exact hok
      | none => exact hok
    | some entry =>
      cases hp : source.peer_id with
      | some peer_id =>
        dsimp only
        cases hbk : peer_known_bookkeeping s entry a.block_hash
            ⟨a.block_hash, ci, a.validator⟩ MessageKind.Assignment peer_id with
        | error r =>
          dsimp only
          have hfr := peer_known_bookkeeping_frame s entry a.block_hash
            ⟨a.block_hash, ci, a.validator⟩ MessageKind.Assignment peer_id r hbk
          rw [hfr]
          exact hok
        | ok outs0 =>
          dsimp only
          split
          · exact hok
          · have hzero : checksFor s.import_pipeline ⟨a.block_hash, ci, a.validator⟩ = 0 := by
              cases hf : force with
              | true => exact hforce hf
              | false =>
                rw [hf, hp] at hcond
                simp at hcond
                obtain ⟨h1, h2⟩ := hok.1 ⟨a.block_hash, ci, a.validator⟩
                by_cases hc : checksFor s.import_pipeline ⟨a.block_hash, ci, a.validator⟩ = 0
                · exact hc
                · have h3 : checksFor s.import_pipeline
                      ⟨a.block_hash, ci, a.validator⟩ = 1 := by omega
                  have h4 := h2 h3
                  rw [hcond.1] at h4
                  cases h4
            exact pipeok_start_check_work_assignment _ _ _ _ _ hok hzero
      | none =>
        dsimp only
        split
        · exact hok
        · rw [finish_assignment_frame]
          exact hok

theorem start_approval_pipe (s : State) (source : MessageSource)
    (vote : IndirectSignedApprovalVote) (force : Bool)
    (hok : PipeOK s.import_pipeline)
    (hforce : force = true →
      checksFor s.import_pipeline
        ⟨vote.block_hash, vote.candidate_index, vote.validator⟩ = 0) :
    PipeOK (s.start_approval_import source vote force).1.import_pipeline := by
  unfold State.start_approval_import
  dsimp only
  split
  · cases hp : source.peer_id with
    | some peer => exact pipeok_queue_message _ _ _ hok
    | none => exact hok
  · rename_i hcond
    cases hb : mfind s.blocks vote.block_hash with
    | none =>
      dsimp only
      cases hp : source.peer_id with
      | some peer_id =>
        dsimp only
        split
        · exact hok
        · exact hok
      | none => exact hok
    | some entry =>
      dsimp only
      split
      · cases hp : source.peer_id with
        | some peer_id =>
          dsimp only
          split
          · exact hok
          · exact hok
        | none => exact hok
      · rename_i entry2 heq2
        cases hp : source.peer_id with
        | some peer_id =>
          dsimp only
          split
          · exact hok
          · cases hbk : peer_known_bookkeeping s entry2 vote.block_hash
                ⟨vote.block_hash, vote.candidate_index, vote.validator⟩
                MessageKind.Approval peer_id with
            | error r =>
              dsimp only
              have hfr := peer_known_bookkeeping_frame s entry2 vote.block_hash
                ⟨vote.block_hash, vote.candidate_index, vote.validator⟩
                MessageKind.Approval peer_id r hbk
              rw [hfr]
              exact hok
            | ok outs0 =>
              dsimp only
              split
              · exact hok
              · have hzero : checksFor s.import_pipeline
                    ⟨vote.block_hash, vote.candidate_index, vote.validator⟩ = 0 := by
                  cases hf : force with
                  | true => exact hforce hf
                  | false =>
                    rw [hf, hp] at hcond
                    simp at hcond
                    obtain ⟨h1, h2⟩ := hok.1
                      ⟨vote.block_hash, vote.candidate_index, vote.validator⟩
                    by_cases hc : checksFor s.import_pipeline
                        ⟨vote.block_hash, vote.candidate_index, vote.validator⟩ = 0
                    · exact hc
                    · have h3 : checksFor s.import_pipeline
                          ⟨vote.block_hash, vote.candidate_index, vote.validator⟩ = 1 := by
                        omega
                      have h4 := h2 h3
                      rw [hcond.1] at h4
                      cases h4
                exact pipeok_start_check_work_approval _ _ _ _ hok hzero
        | none =>
          dsimp only
          split
          · exact hok
          · rw [finish_approval_frame]
            exact hok

theorem foldl_pipeok {α β : Type} (pj : α → ImportPipeline) (f : α → β → α) (l : List β)
    (a : α) (hstep : ∀ x b, pj (f x b) = pj x) (h0 : PipeOK (pj a)) :
    PipeOK (pj (l.foldl f a)) := by
  induction l generalizing a with
  | nil => exact h0
  | cons x rest ih =>
    rw [List.foldl_cons]
    exact ih _ (by rw [hstep]; exact h0)

theorem enable_aggression_pipe (s : State) (r : Resend) :
    (s.enable_aggression r).1.import_pipeline = s.import_pipeline := by
  unfold State.enable_aggression
  dsimp only
  cases hh : s.blocks_by_number.head?.map Prod.fst with
  | none => rfl
  | some minA =>
    cases hl : s.blocks_by_number.getLast?.map Prod.fst with
    | none => rfl
    | some maxA =>
      dsimp only
      split
      · rfl
      · rfl

theorem new_session_topology_pipe (s : State) (sess : SessionIndex) (topo : GridNeighbors)
    (li : Option ValidatorIndex) :
    (s.handle_new_session_topology sess topo li).1.import_pipeline = s.import_pipeline := by
  unfold State.handle_new_session_topology
  cases li <;> rfl

theorem peer_view_change_pipe (s : State) (peer : PeerId) (view : View) (rng : Rng) :
    (s.handle_peer_view_change peer view rng).1.import_pipeline = s.import_pipeline := rfl

theorem our_view_change_pipe (s : State) (view : View) :
    (s.handle_our_view_change view).import_pipeline = s.import_pipeline := by
  unfold State.handle_our_view_change
  dsimp only
  have hfold : ∀ (l : List Hash) (st : State),
      st.import_pipeline = s.import_pipeline →
      (l.foldl (fun st head =>
        if (mfind st.blocks head).isSome then st
        else
          match mfind st.pending_known head with
          | some _ => st
          | none => { st with pending_known := mput st.pending_known head [] }) st
        ).import_pipeline = s.import_pipeline := by
    intro l
    induction l with
    | nil => intro st h; exact h
    | cons x rest ih =>
      intro st h
      rw [List.foldl_cons]
      apply ih
      dsimp only
      split
      · exact h
      · split
        · exact h
        · exact h
  exact hfold _ _ rfl

theorem foldl_pipe_eq {α β : Type} (pj : α → ImportPipeline) (f : α → β → α) (l : List β)
    (a : α) (hstep : ∀ x b, pj (f x b) = pj x) : pj (l.foldl f a) = pj a := by
  induction l generalizing a with
  | nil => rfl
  | cons x rest ih =>
    rw [List.foldl_cons, ih _, hstep]

theorem block_finalized_pipe (s : State) (n : BlockNumber) :
    (s.handle_block_finalized n).1.import_pipeline = s.import_pipeline := by
  unfold State.handle_block_finalized
  dsimp only
  rw [enable_aggression_pipe]
  exact foldl_pipe_eq State.import_pipeline _ _ _
    (fun x b => by split <;> rfl)

theorem import_pending_pipe (msgs : List (PeerId × PendingMessage)) (s : State) (rng : Rng)
    (hok : PipeOK s.import_pipeline) :
    PipeOK (import_pending s msgs rng).1.import_pipeline := by
  induction msgs generalizing s rng with
  | nil => exact hok
  | cons pm rest ih =>
    obtain ⟨pid, msg⟩ := pm
    unfold import_pending
    dsimp only
    cases msg with
    | Assignment a ci =>
      dsimp only
      exact ih _ _ (start_assignment_pipe s (.Peer pid) a ci rng false hok (by simp))
    | Approval vote =>
      dsimp only
      exact ih _ _ (start_approval_pipe s (.Peer pid) vote false hok (by simp))

theorem process_incoming_assignments_pipe (s : State) (peer : PeerId)
    (msgs : List (IndirectAssignmentCert × CandidateIndex)) (rng : Rng)
    (hok : PipeOK s.import_pipeline) :
    PipeOK (process_incoming_assignments s peer msgs rng).1.import_pipeline := by
  induction msgs generalizing s rng with
  | nil => exact hok
  | cons m rest ih =>
    obtain ⟨a, ci⟩ := m
    unfold process_incoming_assignments
    dsimp only
    cases hpk : mfind s.pending_known a.block_hash with
    | some pending =>
      dsimp only
      exact ih _ _ hok
    | none =>
      dsimp only
      exact ih _ _ (start_assignment_pipe s (.Peer peer) a ci rng false hok (by simp))

theorem process_incoming_approvals_pipe (s : State) (peer : PeerId)
    (msgs : List IndirectSignedApprovalVote)
    (hok : PipeOK s.import_pipeline) :
    PipeOK (process_incoming_approvals s peer msgs).1.import_pipeline := by
  induction msgs generalizing s with
  | nil => exact hok
  | cons vote rest ih =>
    unfold process_incoming_approvals
    dsimp only
    cases hpk : mfind s.pending_known vote.block_hash with
    | some pending =>
      dsimp only
      exact ih _ hok
    | none =>
      dsimp only
      exact ih _ (start_approval_pipe s (.Peer peer) vote false hok (by simp))

theorem new_blocks_pipe (s : State) (metas : List BlockApprovalMeta) (rng : Rng)
    (hok : PipeOK s.import_pipeline) :
    PipeOK (s.handle_new_blocks metas rng).1.import_pipeline := by
  unfold State.handle_new_blocks
  dsimp only
  rw [enable_aggression_pipe]
  apply import_pending_pipe
  refine foldl_pipeok (fun (acc : State × List Hash) => acc.1.import_pipeline) _ metas
    (s, []) ?_ hok
  intro x b
  split <;> rfl

theorem not_not_eq_true {b : Bool} (h : ¬((!b) = true)) : b = true := by
  cases b
  · exact absurd rfl h
  · rfl

theorem checks_zero_of_idle (p : ImportPipeline) (subj : MessageSubject)
    (hinv : PipeInv p) (hid : p.is_queue_idle subj = true) :
    checksFor p subj = 0 := by
  obtain ⟨h1, h2⟩ := hinv subj
  by_cases hc : checksFor p subj = 0
  · exact hc
  · have h3 : checksFor p subj = 1 := by omega
    rw [h2 h3] at hid
    cases hid

theorem drain_backlog_pipe (fuel : Nat) (s : State) (subj : MessageSubject) (rng : Rng)
    (hok : PipeOK s.import_pipeline)
    (hzero : checksFor s.import_pipeline subj = 0) :
    PipeOK (drain_backlog fuel s subj rng).1.import_pipeline := by
  induction fuel generalizing s rng with
  | zero => exact hok
  | succ fuel ih =>
    unfold drain_backlog
    dsimp only
    obtain ⟨hok1, hca, hcv, hpw, hpm⟩ := pop_next_message_pipe s.import_pipeline subj hok
    cases hp2 : (s.import_pipeline.pop_next_message subj).2 with
    | none => exact hok1
    | some pm =>
      obtain ⟨peer_id, message⟩ := pm
      dsimp only
      have hsubj : message.subject = subj := hpm (peer_id, message) hp2
      have hz1 : checksFor (s.import_pipeline.pop_next_message subj).1 subj = 0 := by
        rw [checksFor_congr s.import_pipeline (s.import_pipeline.pop_next_message subj).1
          hca hcv]
        exact hzero
      cases message with
      | Assignment a ci =>
        dsimp only
        have hsubj' : (⟨a.block_hash, ci, a.validator⟩ : MessageSubject) = subj := hsubj
        have hone := start_assignment_pipe
          { s with import_pipeline := (s.import_pipeline.pop_next_message subj).1 }
          (.Peer peer_id) a ci rng true hok1 (fun _ => by rw [hsubj']; exact hz1)
        split
        · exact hone
        · rename_i hidle
          exact ih _ _ hone (checks_zero_of_idle _ _ hone.1 (not_not_eq_true hidle))
      | Approval vote =>
        dsimp only
        have hsubj' : (⟨vote.block_hash, vote.candidate_index, vote.validator⟩ :
            MessageSubject) = subj := hsubj
        have hone := start_approval_pipe
          { s with import_pipeline := (s.import_pipeline.pop_next_message subj).1 }
          (.Peer peer_id) vote true hok1 (fun _ => by rw [hsubj']; exact hz1)
        split
        · exact hone
        · rename_i hidle
          exact ih _ _ hone (checks_zero_of_idle _ _ hone.1 (not_not_eq_true hidle))

theorem pipeok_pop_assignment_check (p : ImportPipeline) (check : PendingAssignmentCheck)
    (rest : List PendingAssignmentCheck)
    (hchk : p.pending_assignment_checks = check :: rest) (hok : PipeOK p) :
    PipeOK { p with pending_assignment_checks := rest } ∧
    checksFor { p with pending_assignment_checks := rest } check.message_subject = 0 := by
  obtain ⟨hinv, hwf⟩ := hok
  have hcount : ∀ subj, checksFor p subj =
      (if check.message_subject = subj then 1 else 0) +
      checksFor { p with pending_assignment_checks := rest } subj := by
    intro subj
    unfold checksFor
    rw [hchk]
    dsimp only
    by_cases hc : check.message_subject = subj
    · simp [List.filter, hc]
      omega
    · simp [List.filter, hc]
  constructor
  · refine ⟨fun subj => ?_, fun subj q hq x hx => hwf subj q hq x hx⟩
    obtain ⟨h1, h2⟩ := hinv subj
    rw [hcount subj] at h1 h2
    by_cases hc : check.message_subject = subj
    · rw [if_pos hc] at h1 h2
      refine ⟨by omega, fun hq => ?_⟩
      exfalso
      omega
    · rw [if_neg hc] at h1 h2
      refine ⟨by omega, fun hq => ?_⟩
      exact h2 (by omega)
  · have := (hinv check.message_subject).1
    rw [hcount check.message_subject, if_pos rfl] at this
    omega

theorem pipeok_pop_vote_check (p : ImportPipeline) (check : PendingApprovalCheck)
    (rest : List PendingApprovalCheck)
    (hchk : p.pending_vote_checks = check :: rest) (hok : PipeOK p) :
    PipeOK { p with pending_vote_checks := rest } ∧
    checksFor { p with pending_vote_checks := rest } check.message_subject = 0 := by
  obtain ⟨hinv, hwf⟩ := hok
  have hcount : ∀ subj, checksFor p subj =
      (if check.message_subject = subj then 1 else 0) +
      checksFor { p with pending_vote_checks := rest } subj := by
    intro subj
    unfold checksFor
    rw [hchk]
    dsimp only
    by_cases hc : check.message_subject = subj
    · simp [List.filter, hc]
      omega
    · simp [List.filter, hc]
  constructor
  · refine ⟨fun subj => ?_, fun subj q hq x hx => hwf subj q hq x hx⟩
    obtain ⟨h1, h2⟩ := hinv subj
    rw [hcount subj] at h1 h2
    by_cases hc : check.message_subject = subj
    · rw [if_pos hc] at h1 h2
      refine ⟨by omega, fun hq => ?_⟩
      exfalso
      omega
    · rw [if_neg hc] at h1 h2
      refine ⟨by omega, fun hq => ?_⟩
      exact h2 (by omega)
  · have := (hinv check.message_subject).1
    rw [hcount check.message_subject, if_pos rfl] at this
    omega

theorem pipeok_set_idle_false (p : ImportPipeline) (subj : MessageSubject)
    (hok : PipeOK p) (hz : checksFor p subj = 0) :
    PipeOK (p.set_queue_idle subj false) ∧
    checksFor (p.set_queue_idle subj false) subj = 0 := by
  obtain ⟨hinv, hwf⟩ := hok
  have hcf : ∀ subj', checksFor (p.set_queue_idle subj false) subj' = checksFor p subj' :=
    fun subj' => rfl
  refine ⟨⟨fun subj' => ?_, fun subj' q hq x hx => hwf subj' q hq x hx⟩,
    by rw [hcf]; exact hz⟩
  obtain ⟨h1, h2⟩ := hinv subj'
  rw [hcf]
  refine ⟨h1, fun hc => ?_⟩
  by_cases hs : subj = subj'
  · exfalso
    subst hs
    omega
  · unfold ImportPipeline.set_queue_idle ImportPipeline.is_queue_idle
    dsimp only
    rw [mfind_mput_ne _ _ _ _ hs]
    exact h2 hc

theorem step_pipe (s : State) (e : Event) (rng : Rng) (hok : PipeOK s.import_pipeline) :
    PipeOK (step s e rng).1.import_pipeline := by
  cases e with
  | peerConnected peer =>
    dsimp only [step]
    split <;> exact hok
  | peerDisconnected peer => exact hok
  | newGossipTopology sess topo li =>
    dsimp only [step]
    rw [new_session_topology_pipe]
    exact hok
  | peerViewChange peer view =>
    dsimp only [step]
    rw [peer_view_change_pipe]
    exact hok
  | ourViewChange view =>
    dsimp only [step]
    rw [our_view_change_pipe]
    exact hok
  | peerMessageAssignments peer asgs => exact process_incoming_assignments_pipe _ _ _ _ hok
  | peerMessageApprovals peer apps => exact process_incoming_approvals_pipe _ _ _ hok
  | newBlocks metas => exact new_blocks_pipe _ _ _ hok
  | blockFinalized n =>
    dsimp only [step]
    rw [block_finalized_pipe]
    exact hok
  | distributeAssignment cert ci =>
    exact start_assignment_pipe _ _ _ _ _ _ hok (by simp)
  | distributeApproval vote =>
    exact start_approval_pipe _ _ _ _ hok (by simp)
  | getApprovalSignatures idxs => exact hok
  | assignmentCheckCompleted result =>
    dsimp only [step]
    cases hchk : s.import_pipeline.pending_assignment_checks with
    | nil => exact hok
    | cons check rest =>
      dsimp only
      obtain ⟨hok1, hz1⟩ := pipeok_pop_assignment_check s.import_pipeline check rest hchk hok
      cases result with
      | none => exact hok1
      | some r =>
        dsimp only
        have hfr := finish_assignment_frame
          { s with import_pipeline :=
              { s.import_pipeline with pending_assignment_checks := rest } }
          ⟨check.message_subject, check.peer_id, check.assignment,
            check.claimed_candidate_index, some r⟩ rng
        have hpipe := congrArg State.import_pipeline hfr
        apply drain_backlog_pipe
        · rw [hpipe]
          exact (pipeok_set_idle_false _ _ hok1 hz1).1
        · rw [hpipe]
          exact (pipeok_set_idle_false _ _ hok1 hz1).2
  | approvalCheckCompleted result =>
    dsimp only [step]
    cases hchk : s.import_pipeline.pending_vote_checks with
    | nil => exact hok
    | cons check rest =>
      dsimp only
      obtain ⟨hok1, hz1⟩ := pipeok_pop_vote_check s.import_pipeline check rest hchk hok
      cases result with
      | none => exact hok1
      | some r =>
        dsimp only
        have hfr := finish_approval_frame
          { s with import_pipeline :=
              { s.import_pipeline with pending_vote_checks := rest } }
          ⟨check.message_subject, check.peer_id, check.vote, some r⟩
        have hpipe := congrArg State.import_pipeline hfr
        apply drain_backlog_pipe
        · rw [hpipe]
          exact (pipeok_set_idle_false _ _ hok1 hz1).1
        · rw [hpipe]
          exact (pipeok_set_idle_false _ _ hok1 hz1).2

theorem runEvents_pipe (events : List Event) (s : State) (rng : Rng)
    (hok : PipeOK s.import_pipeline) :
    PipeOK (runEvents s events rng).1.import_pipeline := by
  induction events generalizing s rng with
  | nil => exact hok
  | cons e rest ih =>
    unfold runEvents
    dsimp only
    exact ih _ _ (step_pipe s e rng hok)

/-- C5: over every execution from the initial state, each message
subject has at most one outstanding verification request at any time;
and while a subject's queue is marked running, every further inbound
peer message for it — assignment or approval — is appended to the
per-subject FIFO and no verifier request (indeed no output at all) is
issued. -/
theorem per_subject_verification_serialised :
    (∀ (events : List Event) (rng : Rng) (subj : MessageSubject),
      checksFor (runEvents State.initial events rng).1.import_pipeline subj ≤ 1) ∧
    (∀ (s : State) (peer : PeerId) (a : IndirectAssignmentCert) (ci : CandidateIndex)
      (rng : Rng),
      s.import_pipeline.is_queue_idle ⟨a.block_hash, ci, a.validator⟩ = false →
      (s.start_assignment_import (.Peer peer) a ci rng false).1.import_pipeline =
        s.import_pipeline.queue_message peer (.Assignment a ci) ∧
      (s.start_assignment_import (.Peer peer) a ci rng false).2.1 = []) ∧
    (∀ (s : State) (peer : PeerId) (vote : IndirectSignedApprovalVote),
      s.import_pipeline.is_queue_idle
        ⟨vote.block_hash, vote.candidate_index, vote.validator⟩ = false →
      (s.start_approval_import (.Peer peer) vote false).1.import_pipeline =
        s.import_pipeline.queue_message peer (.Approval vote) ∧
      (s.start_approval_import (.Peer peer) vote false).2 = []) := by
  refine ⟨?_, ?_, ?_⟩
  · intro events rng subj
    exact ((runEvents_pipe events State.initial rng pipeok_empty).1 subj).1
  · intro s peer a ci rng hbusy
    unfold State.start_assignment_import
    dsimp only
    rw [if_pos (by rw [hbusy]; rfl)]
    exact ⟨rfl, rfl⟩
  · intro s peer vote hbusy
    unfold State.start_approval_import
    dsimp only
    rw [if_pos (by rw [hbusy]; rfl)]
    exact ⟨rfl, rfl⟩

/-- Concrete inputs for the C5 witness: a short trace starting a check,
and a running subject receiving a further peer assignment. -/
def c5w_events : List Event :=
  [ .peerConnected 1, .newBlocks [⟨170, 1, 0, 1, 0⟩], .peerViewChange 1 ⟨[170], 0⟩,
    .peerMessageAssignments 1 [(⟨170, 7, 5⟩, 0)] ]

def c5w_busy_state : State :=
  { State.initial with import_pipeline := ⟨[], [], [], [(⟨170, 0, 7⟩, true)]⟩ }

/-- Witness for C5 at concrete inputs. -/
theorem per_subject_verification_serialised_witness :
    checksFor (runEvents State.initial c5w_events []).1.import_pipeline ⟨170, 0, 7⟩ ≤ 1 ∧
    ((c5w_busy_state.start_assignment_import (.Peer 2) ⟨170, 7, 5⟩ 0 []
        false).1.import_pipeline =
      c5w_busy_state.import_pipeline.queue_message 2 (.Assignment ⟨170, 7, 5⟩ 0) ∧
      (c5w_busy_state.start_assignment_import (.Peer 2) ⟨170, 7, 5⟩ 0 [] false).2.1 = []) ∧
    ((c5w_busy_state.start_approval_import (.Peer 3) ⟨170, 0, 7, 99⟩
        false).1.import_pipeline =
      c5w_busy_state.import_pipeline.queue_message 3 (.Approval ⟨170, 0, 7, 99⟩) ∧
      (c5w_busy_state.start_approval_import (.Peer 3) ⟨170, 0, 7, 99⟩ false).2 = []) :=
  ⟨per_subject_verification_serialised.1 c5w_events [] ⟨170, 0, 7⟩,
    per_subject_verification_serialised.2.1 c5w_busy_state 2 ⟨170, 7, 5⟩ 0 [] (by decide),
    per_subject_verification_serialised.2.2 c5w_busy_state 3 ⟨170, 0, 7, 99⟩ (by decide)⟩

end ApprovalDist
